import Mathlib

/-!
Verification development for the `terrent` BitTorrent metadata core.

The Rust source is shallowly embedded over `List Nat` byte buffers:
Rust `Vec<u8>` and `String` values become `List Nat` (for strings, the
UTF-8 bytes), `usize` becomes `Nat`, fallible operations return
`Except`.  External crate operations used by the source
(`bendy` decoding, `percent_encoding`, `url::form_urlencoded`,
`url::Url` on simple absolute HTTP(S) URLs, `sha1`) are modelled at
the byte level.
-/

set_option maxRecDepth 10000

deriving instance DecidableEq for Except

/-- Bytes of an ASCII string literal. -/
def strBytes (s : String) : List Nat := s.toList.map Char.toNat

/-- ASCII decimal digit test. -/
def isDigitB (b : Nat) : Bool := 48 ≤ b && b ≤ 57

/-- ASCII alphanumeric test (the set kept verbatim by
`percent_encoding::NON_ALPHANUMERIC`). -/
def isAlnumB (b : Nat) : Bool :=
  (48 ≤ b && b ≤ 57) || (65 ≤ b && b ≤ 90) || (97 ≤ b && b ≤ 122)

/-- Fuel-driven digit extraction (structural so that the kernel can
evaluate it); the fuel never runs out when it starts at the number
itself. -/
def decBytesAux : Nat → Nat → List Nat
  | 0, n => [48 + n % 10]
  | f + 1, n =>
    if n < 10 then [48 + n] else decBytesAux f (n / 10) ++ [48 + n % 10]

/-- ASCII decimal representation of a natural number, as bytes
(models Rust's `Display for usize` / `format!`). -/
def decBytes (n : Nat) : List Nat := decBytesAux n n

/-- Numeric value of a digit-byte list (most significant first). -/
def decVal (ds : List Nat) : Nat := ds.foldl (fun a d => a * 10 + (d - 48)) 0

/-- Whether `p` occurs at the start of `s`. -/
def leadsWith : List Nat → List Nat → Bool
  | [], _ => true
  | _ :: _, [] => false
  | a :: as, b :: bs => a == b && leadsWith as bs

/-- Whether `p` occurs anywhere inside `s` (substring test on bytes). -/
def occursIn (p s : List Nat) : Bool :=
  leadsWith p s ||
    match s with
    | [] => false
    | _ :: t => occursIn p t

/-- Continuation-byte test for UTF-8. -/
def contB (b : Nat) : Bool := 128 ≤ b && b ≤ 191

/-- UTF-8 validity of a byte sequence (models Rust `String::from_utf8`
succeeding). -/
def isValidUtf8 : List Nat → Bool
  | [] => true
  | b :: t =>
    if b ≤ 127 then isValidUtf8 t
    else
      match t with
      | [] => false
      | c1 :: t1 =>
        if 194 ≤ b && b ≤ 223 then contB c1 && isValidUtf8 t1
        else
          match t1 with
          | [] => false
          | c2 :: t2 =>
            if b = 224 then (160 ≤ c1 && c1 ≤ 191) && contB c2 && isValidUtf8 t2
            else if (225 ≤ b && b ≤ 236) || b = 238 || b = 239 then
              contB c1 && contB c2 && isValidUtf8 t2
            else if b = 237 then (128 ≤ c1 && c1 ≤ 159) && contB c2 && isValidUtf8 t2
            else
              match t2 with
              | [] => false
              | c3 :: t3 =>
                if b = 240 then
                  (144 ≤ c1 && c1 ≤ 191) && contB c2 && contB c3 && isValidUtf8 t3
                else if 241 ≤ b && b ≤ 243 then
                  contB c1 && contB c2 && contB c3 && isValidUtf8 t3
                else if b = 244 then
                  (128 ≤ c1 && c1 ≤ 143) && contB c2 && contB c3 && isValidUtf8 t3
                else false

/-- Decode-side failure conditions (bendy decode errors, `ParseIntError`
from `str::parse::<usize>`, `FromUtf8Error`, `missing_field`). -/
inductive DErr where
  | unexpectedEof
  | invalidLength
  | invalidInteger
  | invalidDictKey
  | wrongType
  | parseIntErr
  | invalidUtf8
  | skipFail
  | fuelOut
  | missingField (k : List Nat)
deriving DecidableEq, Repr

/-- Byte-string token `<len>:<raw bytes>` of bencode, as scanned by the
bendy decoder: returns the contents and the remaining input. -/
def parseByteStr (s : List Nat) : Except DErr (List Nat × List Nat) :=
  let ds := s.takeWhile isDigitB
  if ds = [] then .error .invalidLength
  else
    match s.drop ds.length with
    | 58 :: rest =>
      let n := decVal ds
      if rest.length < n then .error .unexpectedEof
      else .ok (rest.take n, rest.drop n)
    | _ => .error .invalidLength

/-- Validity of the text between `i` and `e` of a bencode integer:
digits with no leading zero except literal `0`, optional minus,
`-0` rejected (the bendy scanner's rule). -/
def intTokenValid : List Nat → Bool
  | [] => false
  | [d] => isDigitB d
  | d :: e :: ds =>
    if d = 45 then (49 ≤ e && e ≤ 57) && (e :: ds).all isDigitB
    else (49 ≤ d && d ≤ 57) && (e :: ds).all isDigitB

/-- Integer token `i<text>e` of bencode as scanned by bendy
(`try_into_integer` hands back the validated text). -/
def parseIntTok (s : List Nat) : Except DErr (List Nat × List Nat) :=
  match s with
  | 105 :: rest =>
    let tok := rest.takeWhile (fun b => b != 101)
    match rest.drop tok.length with
    | 101 :: rest2 =>
      if intTokenValid tok then .ok (tok, rest2) else .error .invalidInteger
    | _ => .error .unexpectedEof
  | _ => .error .wrongType

/-- Rust `str::parse::<usize>` on an integer token: digits only (a minus
sign fails), value must fit in 64 bits. -/
def usizeFromTok (t : List Nat) : Option Nat :=
  if !t.isEmpty && t.all isDigitB then
    let v := decVal t
    if v < 18446744073709551616 then some v else none
  else none

/-- Length-prefixed byte-string encoding `<len>:<bytes>` (the shape
produced by `format!` in `encode_str_field` / `encode_bytes_field`,
and the bencode byte-string grammar). -/
def encLenPrefixed (s : List Nat) : List Nat := decBytes s.length ++ 58 :: s

/-- Decimal text of an `i64`-style integer (minus sign then digits). -/
def intBytes (z : Int) : List Nat :=
  if z < 0 then 45 :: decBytes z.natAbs else decBytes z.toNat

mutual

/-- Generic bencode value (the four legal shapes). -/
inductive BVal : Type where
  | int (z : Int)
  | bytes (s : List Nat)
  | list (xs : BList)
  | dict (ps : BPairs)

/-- Sequence of bencode values. -/
inductive BList : Type where
  | nil
  | cons (x : BVal) (xs : BList)

/-- Sequence of key/value pairs of a bencode dictionary. -/
inductive BPairs : Type where
  | nil
  | cons (k : List Nat) (v : BVal) (ps : BPairs)

end

mutual

/-- Standard bencode encoding of a generic value. -/
def encodeBVal : BVal → List Nat
  | .int z => 105 :: (intBytes z ++ [101])
  | .bytes s => encLenPrefixed s
  | .list xs => 108 :: encodeBSeq xs
  | .dict ps => 100 :: encodeBPairs ps

/-- Encoding of the elements of a list, with the closing `e`. -/
def encodeBSeq : BList → List Nat
  | .nil => [101]
  | .cons x xs => encodeBVal x ++ encodeBSeq xs

/-- Encoding of dictionary pairs, with the closing `e`. -/
def encodeBPairs : BPairs → List Nat
  | .nil => [101]
  | .cons k v ps => encLenPrefixed k ++ (encodeBVal v ++ encodeBPairs ps)

end

mutual

/-- Recursion bound under which `skipObj` certainly succeeds. -/
def sizeBV : BVal → Nat
  | .int _ => 0
  | .bytes _ => 0
  | .list xs => 1 + sizeBL xs
  | .dict ps => 1 + sizeBP ps

/-- Bound for `skipSeq`. -/
def sizeBL : BList → Nat
  | .nil => 0
  | .cons x xs => 1 + sizeBV x + sizeBL xs

/-- Bound for `skipPairs`. -/
def sizeBP : BPairs → Nat
  | .nil => 0
  | .cons _ v ps => 1 + sizeBV v + sizeBP ps

end

mutual

/-- Consume one full bencode object from the stream without keeping it
(models bendy dropping an unconsumed `Object`, which tokenizes the
whole value, validating nested structure on the way). -/
def skipObj : Nat → List Nat → Option (List Nat)
  | 0, _ => none
  | f + 1, s =>
    match s with
    | [] => none
    | b :: rest =>
      if b = 105 then
        match parseIntTok s with
        | .ok (_, r) => some r
        | .error _ => none
      else if b = 108 then skipSeq f rest
      else if b = 100 then skipPairs f rest
      else if isDigitB b then
        match parseByteStr s with
        | .ok (_, r) => some r
        | .error _ => none
      else none

/-- Consume list elements up to and including the closing `e`. -/
def skipSeq : Nat → List Nat → Option (List Nat)
  | 0, _ => none
  | f + 1, s =>
    match s with
    | [] => none
    | b :: rest =>
      if b = 101 then some rest
      else
        match skipObj f s with
        | some r => skipSeq f r
        | none => none

/-- Consume dictionary pairs (byte-string key then value) up to and
including the closing `e`. -/
def skipPairs : Nat → List Nat → Option (List Nat)
  | 0, _ => none
  | f + 1, s =>
    match s with
    | [] => none
    | b :: rest =>
      if b = 101 then some rest
      else
        match parseByteStr s with
        | .ok (_, s1) =>
          match skipObj f s1 with
          | some r => skipPairs f r
          | none => none
        | .error _ => none

end

def kPieces : List Nat := strBytes "pieces"

def kPieceLen : List Nat := strBytes "piece length"

def kLen : List Nat := strBytes "length"

def kName : List Nat := strBytes "name"

def kAnnounce : List Nat := strBytes "announce"

def kInfo : List Nat := strBytes "info"

/-- The info record of `src/file/bencode.rs` (`name` and `pieces` held as
their raw bytes; `name` is a Rust `String`, hence always valid UTF-8
when produced by the decoder). -/
structure BencodeInfo where
  pieces : List Nat
  piece_length : Nat
  length : Nat
  name : List Nat
deriving DecidableEq, Repr

/-- The four mutable `Option` locals of
`BencodeInfo::decode_bencode_object`. -/
structure InfoAcc where
  pieces : Option (List Nat)
  piece_length : Option Nat
  length : Option Nat
  name : Option (List Nat)
deriving DecidableEq, Repr

/-- The `while let Some((key, value)) = dict.next_pair()?` loop of
`BencodeInfo::decode_bencode_object` (bencode.rs lines 23-40): reads
pairs until the dictionary's closing `e`, overwriting the matching
local on every recognized key and skipping units with unknown keys.
The fuel argument is a termination artifact; the top-level call
supplies more fuel than pairs can exist. -/
def infoLoop : Nat → List Nat → InfoAcc → Except DErr (InfoAcc × List Nat)
  | 0, _, _ => .error .fuelOut
  | f + 1, s, acc =>
    match s with
    | [] => .error .unexpectedEof
    | b :: rest =>
      if b = 101 then .ok (acc, rest)
      else if isDigitB b then
        match parseByteStr s with
        | .error e => .error e
        | .ok (key, s1) =>
          if key = kPieces then
            match parseByteStr s1 with
            | .error e => .error e
            | .ok (v, s2) => infoLoop f s2 { acc with pieces := some v }
          else if key = kPieceLen then
            match parseIntTok s1 with
            | .error e => .error e
            | .ok (tok, s2) =>
              match usizeFromTok tok with
              | none => .error .parseIntErr
              | some v => infoLoop f s2 { acc with piece_length := some v }
          else if key = kLen then
            match parseIntTok s1 with
            | .error e => .error e
            | .ok (tok, s2) =>
              match usizeFromTok tok with
              | none => .error .parseIntErr
              | some v => infoLoop f s2 { acc with length := some v }
          else if key = kName then
            match parseByteStr s1 with
            | .error e => .error e
            | .ok (v, s2) =>
              if isValidUtf8 v then infoLoop f s2 { acc with name := some v }
              else .error .invalidUtf8
          else
            match skipObj s1.length s1 with
            | none => .error .skipFail
            | some s2 => infoLoop f s2 acc
      else .error .invalidDictKey

/-- The `ok_or_else` chain building the `BencodeInfo` result
(bencode.rs lines 42-48). -/
def buildInfo (acc : InfoAcc) : Except DErr BencodeInfo :=
  match acc.pieces with
  | none => .error (.missingField kPieces)
  | some ps =>
    match acc.piece_length with
    | none => .error (.missingField kPieceLen)
    | some pl =>
      match acc.length with
      | none => .error (.missingField kLen)
      | some len =>
        match acc.name with
        | none => .error (.missingField kName)
        | some nm => .ok ⟨ps, pl, len, nm⟩

/-- `BencodeInfo::decode_bencode_object` on an object positioned in a
byte stream: `try_into_dictionary` requires a `d`, then the pair loop
runs; returns the decoded record and the rest of the stream. -/
def decodeInfoObj (s : List Nat) : Except DErr (BencodeInfo × List Nat) :=
  match s with
  | 100 :: rest =>
    match infoLoop (rest.length + 1) rest ⟨none, none, none, none⟩ with
    | .error e => .error e
    | .ok (acc, r) =>
      match buildInfo acc with
      | .error e => .error e
      | .ok i => .ok (i, r)
  | [] => .error .unexpectedEof
  | _ => .error .wrongType

/-- `BencodeInfo::from_bencode` on a whole buffer. -/
def decodeInfoDoc (s : List Nat) : Except DErr BencodeInfo :=
  match decodeInfoObj s with
  | .error e => .error e
  | .ok (i, _) => .ok i

/-- Field encoder `encode_int_field` (bencode.rs lines 96-101):
`<klen>:<key>` then `i<value>e`. -/
def encIntField (k : List Nat) (v : Nat) : List Nat :=
  encLenPrefixed k ++ 105 :: (decBytes v ++ [101])

/-- Field encoder `encode_str_field` (bencode.rs lines 89-94), on the
UTF-8 bytes of the string value. -/
def encStrField (k s : List Nat) : List Nat :=
  encLenPrefixed k ++ encLenPrefixed s

/-- Field encoder `encode_bytes_field` (bencode.rs lines 103-107). -/
def encBytesField (k s : List Nat) : List Nat :=
  encLenPrefixed k ++ encLenPrefixed s

/-- The canonical buffer built by `BencodeInfo::hash` (bencode.rs lines
54-65): `d`, then the four known fields in the fixed order `length`,
`name`, `piece length`, `pieces`, then `e`. -/
def encodeInfo (i : BencodeInfo) : List Nat :=
  100 :: (encIntField kLen i.length ++ (encStrField kName i.name ++
    (encIntField kPieceLen i.piece_length ++ (encBytesField kPieces i.pieces ++ [101]))))

def w32 (n : Nat) : Nat := n % 4294967296

def rotl (k x : Nat) : Nat := w32 (x <<< k) ||| (x >>> (32 - k))

def sha1K (t : Nat) : Nat :=
  if t < 20 then 1518500249
  else if t < 40 then 1859775393
  else if t < 60 then 2400959708
  else 3395469782

def sha1F (t b c d : Nat) : Nat :=
  if t < 20 then (b &&& c) ||| ((b ^^^ 4294967295) &&& d)
  else if t < 40 then b ^^^ c ^^^ d
  else if t < 60 then (b &&& c) ||| (b &&& d) ||| (c &&& d)
  else b ^^^ c ^^^ d

def toWords : List Nat → List Nat
  | b0 :: b1 :: b2 :: b3 :: rest =>
    (((b0 * 256 + b1) * 256 + b2) * 256 + b3) :: toWords rest
  | _ => []

def sha1Sched (ws : Array Nat) : Array Nat :=
  (List.range 64).foldl (fun a _ =>
    a.push (rotl 1 ((a.getD (a.size - 3) 0) ^^^ (a.getD (a.size - 8) 0) ^^^
      (a.getD (a.size - 14) 0) ^^^ (a.getD (a.size - 16) 0)))) ws

/-- Working state of one SHA-1 compression. -/
structure Sha1St where
  a : Nat
  b : Nat
  c : Nat
  d : Nat
  e : Nat

def sha1Compress (st : Sha1St) (block : List Nat) : Sha1St :=
  let w := sha1Sched (toWords block).toArray
  let fin := (List.range 80).foldl (fun s t =>
    let temp := w32 (rotl 5 s.a + sha1F t s.b s.c s.d + s.e + sha1K t + w.getD t 0)
    ⟨temp, s.a, rotl 30 s.b, s.c, s.d⟩) st
  ⟨w32 (st.a + fin.a), w32 (st.b + fin.b), w32 (st.c + fin.c),
    w32 (st.d + fin.d), w32 (st.e + fin.e)⟩

/-- Fuel-driven fixed-width chunking (structural for kernel
evaluation); never runs out of fuel starting from the list length. -/
def chunksAux (k : Nat) : Nat → List Nat → List (List Nat)
  | 0, _ => []
  | f + 1, l => if l = [] then [] else l.take k :: chunksAux k f (l.drop k)

/-- `pieces.chunks(64)`-style chunking used by the SHA-1 padding. -/
def chunks64 (l : List Nat) : List (List Nat) := chunksAux 64 l.length l

def bytesBE8 (n : Nat) : List Nat :=
  [(n >>> 56) % 256, (n >>> 48) % 256, (n >>> 40) % 256, (n >>> 32) % 256,
    (n >>> 24) % 256, (n >>> 16) % 256, (n >>> 8) % 256, n % 256]

def sha1Pad (msg : List Nat) : List Nat :=
  let padLen := (120 - ((msg.length + 1) % 64)) % 64
  msg ++ 128 :: (List.replicate padLen 0 ++ bytesBE8 (msg.length * 8))

def wordBytes (x : Nat) : List Nat :=
  [(x >>> 24) % 256, (x >>> 16) % 256, (x >>> 8) % 256, x % 256]

/-- SHA-1 digest (the `sha1` crate's `Sha1::digest`), 20 bytes. -/
def sha1 (msg : List Nat) : List Nat :=
  let st := (chunks64 (sha1Pad msg)).foldl sha1Compress
    ⟨1732584193, 4023233417, 2562383102, 271733878, 3285377520⟩
  wordBytes st.a ++ wordBytes st.b ++ wordBytes st.c ++ wordBytes st.d ++ wordBytes st.e

/-- `BencodeInfo::hash` (bencode.rs lines 53-69): digest of the
canonical buffer; the `anyhow::Result` never carries an error. -/
def BencodeInfo.hash (i : BencodeInfo) : Except (List Nat) (List Nat) :=
  .ok (sha1 (encodeInfo i))

/-- `self.pieces.chunks(HASH_LEN)` of `split_pieces_hashes`. -/
def chunks20 (l : List Nat) : List (List Nat) := chunksAux 20 l.length l

/-- `BencodeInfo::split_pieces_hashes` (bencode.rs lines 71-87). -/
def BencodeInfo.split_pieces_hashes (i : BencodeInfo) :
    Except (List Nat) (List (List Nat)) :=
  if i.pieces.length % 20 ≠ 0 then
    .error (strBytes "Received malformed pieces: length " ++
      decBytes i.pieces.length ++ strBytes " is not a multiple of 20")
  else .ok (chunks20 i.pieces)

/-- The torrent record of `src/file/bencode.rs`. -/
structure BencodeTorrent where
  announce : List Nat
  info : BencodeInfo
deriving DecidableEq, Repr

/-- The two mutable `Option` locals of
`BencodeTorrent::decode_bencode_object`. -/
structure TorrAcc where
  announce : Option (List Nat)
  info : Option BencodeInfo
deriving DecidableEq, Repr

/-- The pair loop of `BencodeTorrent::decode_bencode_object`
(bencode.rs lines 123-134). -/
def torrentLoop : Nat → List Nat → TorrAcc → Except DErr (TorrAcc × List Nat)
  | 0, _, _ => .error .fuelOut
  | f + 1, s, acc =>
    match s with
    | [] => .error .unexpectedEof
    | b :: rest =>
      if b = 101 then .ok (acc, rest)
      else if isDigitB b then
        match parseByteStr s with
        | .error e => .error e
        | .ok (key, s1) =>
          if key = kAnnounce then
            match parseByteStr s1 with
            | .error e => .error e
            | .ok (v, s2) =>
              if isValidUtf8 v then torrentLoop f s2 { acc with announce := some v }
              else .error .invalidUtf8
          else if key = kInfo then
            match decodeInfoObj s1 with
            | .error e => .error e
            | .ok (i, s2) => torrentLoop f s2 { acc with info := some i }
          else
            match skipObj s1.length s1 with
            | none => .error .skipFail
            | some s2 => torrentLoop f s2 acc
      else .error .invalidDictKey

/-- The `ok_or_else` chain of `BencodeTorrent::decode_bencode_object`
(bencode.rs lines 136-139). -/
def buildTorrent (acc : TorrAcc) : Except DErr BencodeTorrent :=
  match acc.announce with
  | none => .error (.missingField kAnnounce)
  | some a =>
    match acc.info with
    | none => .error (.missingField kInfo)
    | some i => .ok ⟨a, i⟩

/-- `BencodeTorrent::from_bencode` on a whole buffer. -/
def decodeTorrent (s : List Nat) : Except DErr BencodeTorrent :=
  match s with
  | 100 :: rest =>
    match torrentLoop (rest.length + 1) rest ⟨none, none⟩ with
    | .error e => .error e
    | .ok (acc, _) => buildTorrent acc
  | [] => .error .unexpectedEof
  | _ => .error .wrongType

/-- The descriptor of `src/file/mod.rs`. -/
structure TorrentFile where
  announce : List Nat
  info_hash : List Nat
  piece_hashes : List (List Nat)
  piece_length : Nat
  length : Nat
  name : List Nat
deriving DecidableEq, Repr

/-- `TryFrom<BencodeTorrent> for TorrentFile` (mod.rs lines 47-60). -/
def TorrentFile.tryFrom (bt : BencodeTorrent) : Except (List Nat) TorrentFile :=
  match bt.info.hash with
  | .error e => .error e
  | .ok ih =>
    match bt.info.split_pieces_hashes with
    | .error e => .error e
    | .ok phs =>
      .ok ⟨bt.announce, ih, phs, bt.info.piece_length, bt.info.length, bt.info.name⟩

/-- Whether an `Except` result is a success. -/
def exOk : Except (List Nat) TorrentFile → Bool
  | .ok _ => true
  | .error _ => false

/-- Parsed simple absolute URL. -/
structure UrlM where
  scheme : List Nat
  host : List Nat
  path : List Nat
  query : Option (List Nat)
deriving DecidableEq, Repr

def isHostByte (b : Nat) : Bool :=
  (97 ≤ b && b ≤ 122) || (48 ≤ b && b ≤ 57) || b = 45 || b = 46

def isPathByte (b : Nat) : Bool :=
  isAlnumB b || b = 45 || b = 47 || b = 95 || b = 126

def isQueryByte (b : Nat) : Bool := isPathByte b || b = 61 || b = 38

/-- Authority/path/query split after `scheme://`. -/
def urlAfterScheme (scheme t : List Nat) : Option UrlM :=
  let hostPart := t.takeWhile (fun b => b != 47 && b != 63)
  let rem := t.drop hostPart.length
  if hostPart.isEmpty || !hostPart.all isHostByte then none
  else
    match rem with
    | [] => some ⟨scheme, hostPart, [47], none⟩
    | 47 :: _ =>
      let p := rem.takeWhile (fun b => b != 63)
      let q := rem.drop p.length
      if !p.all isPathByte then none
      else
        match q with
        | [] => some ⟨scheme, hostPart, p, none⟩
        | 63 :: qs =>
          if qs.all isQueryByte then some ⟨scheme, hostPart, p, some qs⟩ else none
        | _ => none
    | 63 :: qs =>
      if qs.all isQueryByte then some ⟨scheme, hostPart, [47], some qs⟩ else none
    | _ => none

/-- Model of `url::Url::parse` restricted to plain absolute `http` /
`https` URLs: lowercase host of letters, digits, `.` and `-` (no port,
no userinfo), a path and optional query over unreserved bytes, and no
fragment.  On this subset the `url` crate performs no normalization
other than supplying the `/` path, so its serialization is the plain
reassembly below; strings with no scheme (such as `not-a-valid-url`)
are rejected, as `Url::parse` rejects relative URLs. -/
def urlParseSimple (s : List Nat) : Option UrlM :=
  if leadsWith (strBytes "http://") s then
    urlAfterScheme (strBytes "http") (s.drop 7)
  else if leadsWith (strBytes "https://") s then
    urlAfterScheme (strBytes "https") (s.drop 8)
  else none

/-- `url.set_query(Some(q))` followed by `url.to_string()`: the former
query of the URL is discarded and replaced. -/
def urlWithQuery (u : UrlM) (q : List Nat) : List Nat :=
  u.scheme ++ strBytes "://" ++ u.host ++ u.path ++ 63 :: q

def concatMapB (f : Nat → List Nat) : List Nat → List Nat
  | [] => []
  | a :: as => f a ++ concatMapB f as

def hexDigitB (n : Nat) : Nat := if n < 10 then 48 + n else 55 + n

def hexByte (b : Nat) : List Nat := [hexDigitB (b / 16), hexDigitB (b % 16)]

/-- One byte under `percent_encoding::percent_encode(_, NON_ALPHANUMERIC)`:
alphanumeric bytes stay, every other byte becomes `%XX` (uppercase hex). -/
def percentEncNA (b : Nat) : List Nat :=
  if isAlnumB b then [b] else 37 :: hexByte b

def percentEnc (s : List Nat) : List Nat := concatMapB percentEncNA s

/-- Safe set of `form_urlencoded` serialization: alphanumerics and
`*-._` stay; space becomes `+`; everything else becomes `%XX`. -/
def isFormSafe (b : Nat) : Bool :=
  isAlnumB b || b = 42 || b = 45 || b = 46 || b = 95

def formByteEnc (b : Nat) : List Nat :=
  if isFormSafe b then [b] else if b = 32 then [43] else 37 :: hexByte b

def formEnc (s : List Nat) : List Nat := concatMapB formByteEnc s

/-- `form_urlencoded::Serializer::append_pair` chain followed by
`finish`: pairs joined with `&`, keys and values form-encoded. -/
def formSerialize : List (List Nat × List Nat) → List Nat
  | [] => []
  | [(k, v)] => formEnc k ++ 61 :: formEnc v
  | (k, v) :: rest => formEnc k ++ 61 :: (formEnc v ++ 38 :: formSerialize rest)

/-- The query built by `build_tracker_url` (mod.rs lines 29-40): the
percent-encoded hashes are passed as ordinary string values to the
form serializer. -/
def trackerQuery (ih pid : List Nat) (port len : Nat) : List Nat :=
  formSerialize [(strBytes "info_hash", percentEnc ih),
    (strBytes "peer_id", percentEnc pid),
    (strBytes "port", decBytes port),
    (strBytes "uploaded", strBytes "0"),
    (strBytes "downloaded", strBytes "0"),
    (strBytes "compact", strBytes "1"),
    (strBytes "left", decBytes len)]

/-- `TorrentFile::build_tracker_url` (mod.rs lines 25-44); the error is
the `anyhow` context message naming the announce string. -/
def TorrentFile.build_tracker_url (t : TorrentFile) (peer_id : List Nat)
    (port : Nat) : Except (List Nat) (List Nat) :=
  match urlParseSimple t.announce with
  | none => .error (strBytes "Invalid announce URL: " ++ t.announce)
  | some u => .ok (urlWithQuery u (trackerQuery t.info_hash peer_id port t.length))

/-- Whether a tracker-URL result is a success. -/
def exOkU : Except (List Nat) (List Nat) → Bool
  | .ok _ => true
  | .error _ => false

/-- The peer record of `src/peers.rs` (`ip` holds the four octets of
the `Ipv4Addr`). -/
structure Peer where
  ip : Nat × Nat × Nat × Nat
  port : Nat
deriving DecidableEq, Repr

/-- The decoding loop of `Peer::unmarshal` (peers.rs lines 24-39): one
peer per 6-byte group, 4 IP octets then big-endian 16-bit port. -/
def peersOf : List Nat → List Peer
  | a :: b :: c :: d :: p1 :: p2 :: rest =>
    ⟨(a, b, c, d), p1 * 256 + p2⟩ :: peersOf rest
  | _ => []

/-- `Peer::unmarshal` (peers.rs lines 10-42); note the `anyhow::bail!`
message interpolates `PEER_SIZE` (the constant 6), not the input
length. -/
def Peer.unmarshal (bin : List Nat) : Except (List Nat) (List Peer) :=
  if bin.length % 6 ≠ 0 then
    .error (strBytes "Received malformed peers list (length not divisible by 6)")
  else .ok (peersOf bin)

/-- Whether a peer-decode result is a success. -/
def exOkP : Except (List Nat) (List Peer) → Bool
  | .ok _ => true
  | .error _ => false

/-- Body of a bencode dictionary from a meta-level pair list. -/
def serializeIPairs : List (List Nat × BVal) → List Nat
  | [] => []
  | (k, v) :: ps => encLenPrefixed k ++ (encodeBVal v ++ serializeIPairs ps)

/-- Contents of a byte-string value. -/
def bvBytes : BVal → Option (List Nat)
  | .bytes s => some s
  | _ => none

/-- Value of an integer that Rust's `parse::<usize>` accepts. -/
def bvUsize : BVal → Option Nat
  | .int z => if 0 ≤ z ∧ z < 18446744073709551616 then some z.toNat else none
  | _ => none

/-- Result of the last pair with key `k`, under extraction `f`
(the overwrite semantics of the decode loops). -/
def lastField {α : Type} (f : BVal → Option α) (k : List Nat)
    (ps : List (List Nat × BVal)) : Option α :=
  ps.foldl (fun o p => if p.1 = k then f p.2 else o) none

/-- One iteration of the info pair loop as a pure state update. -/
def stepInfo (acc : InfoAcc) (p : List Nat × BVal) : InfoAcc :=
  if p.1 = kPieces then
    match p.2 with
    | .bytes s => { acc with pieces := some s }
    | _ => acc
  else if p.1 = kPieceLen then
    match bvUsize p.2 with
    | some v => { acc with piece_length := some v }
    | none => acc
  else if p.1 = kLen then
    match bvUsize p.2 with
    | some v => { acc with length := some v }
    | none => acc
  else if p.1 = kName then
    match p.2 with
    | .bytes s => { acc with name := some s }
    | _ => acc
  else acc

/-- Well-typedness of one info pair: a recognized key carries a value
of the type the decoder demands (any value is fine under an
unrecognized key). -/
def ipairOk (p : List Nat × BVal) : Prop :=
  (p.1 = kPieces → ∃ s, p.2 = .bytes s) ∧
  (p.1 = kPieceLen → ∃ z, p.2 = .int z ∧ 0 ≤ z ∧ z < 18446744073709551616) ∧
  (p.1 = kLen → ∃ z, p.2 = .int z ∧ 0 ≤ z ∧ z < 18446744073709551616) ∧
  (p.1 = kName → ∃ s, p.2 = .bytes s ∧ isValidUtf8 s = true)

/-- Meta-level view of nested dictionary pairs. -/
def bpairsToList : BPairs → List (List Nat × BVal)
  | .nil => []
  | .cons k v ps => (k, v) :: bpairsToList ps

/-- The nested info dictionary decodes to `inf`: each recognized key is
well-typed and `inf` collects the last occurrences. -/
def infoObjOk (dps : BPairs) (inf : BencodeInfo) : Prop :=
  (∀ p ∈ bpairsToList dps, ipairOk p) ∧
  lastField bvBytes kPieces (bpairsToList dps) = some inf.pieces ∧
  lastField bvUsize kPieceLen (bpairsToList dps) = some inf.piece_length ∧
  lastField bvUsize kLen (bpairsToList dps) = some inf.length ∧
  lastField bvBytes kName (bpairsToList dps) = some inf.name

/-- The decoded info record carried by a dictionary value (`none` when
the value is not a dictionary or its info decode fails). -/
def dictInfoDec (v : BVal) : Option BencodeInfo :=
  match v with
  | .dict dps =>
    match decodeInfoDoc (encodeBVal (.dict dps)) with
    | .ok i => some i
    | .error _ => none
  | _ => none

/-- Well-typedness of one torrent pair. -/
def tpairOk (p : List Nat × BVal) : Prop :=
  (p.1 = kAnnounce → ∃ s, p.2 = .bytes s ∧ isValidUtf8 s = true) ∧
  (p.1 = kInfo → ∃ dps inf, p.2 = .dict dps ∧ infoObjOk dps inf)

/-- One iteration of the torrent pair loop as a pure state update. -/
def stepTorrent (acc : TorrAcc) (p : List Nat × BVal) : TorrAcc :=
  if p.1 = kAnnounce then
    match p.2 with
    | .bytes s => { acc with announce := some s }
    | _ => acc
  else if p.1 = kInfo then
    match dictInfoDec p.2 with
    | some i => { acc with info := some i }
    | none => acc
  else acc

/-- Strip an expected literal from the front of a buffer. -/
def stripPre (p s : List Nat) : Option (List Nat) :=
  if leadsWith p s then some (s.drop p.length) else none

/-- Inverse reading of the canonical info buffer layout; a left inverse
of the canonical encoder used to show the encoder injective. -/
def canonParse (s : List Nat) : Option (Nat × List Nat × Nat × List Nat) :=
  match s with
  | 100 :: r0 =>
    match stripPre (encLenPrefixed kLen) r0 with
    | none => none
    | some r1 =>
      match parseIntTok r1 with
      | .error _ => none
      | .ok (tok1, r2) =>
        match stripPre (encLenPrefixed kName) r2 with
        | none => none
        | some r3 =>
          match parseByteStr r3 with
          | .error _ => none
          | .ok (nm, r4) =>
            match stripPre (encLenPrefixed kPieceLen) r4 with
            | none => none
            | some r5 =>
              match parseIntTok r5 with
              | .error _ => none
              | .ok (tok2, r6) =>
                match stripPre (encLenPrefixed kPieces) r6 with
                | none => none
                | some r7 =>
                  match parseByteStr r7 with
                  | .error _ => none
                  | .ok (ps, _) => some (decVal tok1, nm, decVal tok2, ps)
  | _ => none

/-- Raw-byte lexicographic strict order (bencode canonical key order). -/
def lexLtB : List Nat → List Nat → Bool
  | [], [] => false
  | [], _ :: _ => true
  | _ :: _, [] => false
  | a :: as, b :: bs => if a < b then true else if a = b then lexLtB as bs else false

/-- `url`'s form serialization applied after `percent_encoding`: the
`%` introduced by the first pass is itself form-encoded as `%25`, so
each non-alphanumeric byte ends up encoded twice. -/
def dblEncNA (b : Nat) : List Nat :=
  if isAlnumB b then [b] else 37 :: (50 :: (53 :: hexByte b))

/-- Peer built from six consecutive bytes at an offset (peers.rs loop
body: four IP octets then `u16::from_be_bytes`). -/
def peerAt (l : List Nat) : Peer :=
  ⟨(l.getD 0 0, l.getD 1 0, l.getD 2 0, l.getD 3 0), (l.getD 4 0) * 256 + l.getD 5 0⟩

/-- `TorrentFile::open` minus the filesystem read: decode then convert. -/
def decodeTorrentFile (s : List Nat) : Except (List Nat) TorrentFile :=
  match decodeTorrent s with
  | .error _ => .error (strBytes "Failed to decode bencode")
  | .ok bt => TorrentFile.tryFrom bt

theorem decBytesAux_irrel : ∀ n f g, n ≤ f → n ≤ g →
    decBytesAux f n = decBytesAux g n := by
  intro n
  induction n using Nat.strong_induction_on with
  | _ n ih =>
    intro f g hf hg
    match f, g with
    | 0, 0 => rfl
    | 0, g + 1 =>
      have : n = 0 := by omega
      subst this
      simp [decBytesAux]
    | f + 1, 0 =>
      have : n = 0 := by omega
      subst this
      simp [decBytesAux]
    | f + 1, g + 1 =>
      rw [decBytesAux, decBytesAux]
      split
      · rfl
      · rename_i h10
        have hlt : n / 10 < n := Nat.div_lt_self (by omega) (by omega)
        rw [ih (n / 10) hlt f g (by omega) (by omega)]

/-- The recurrence the Rust formatting satisfies; used in place of
definitional unfolding. -/
theorem decBytes_eq (n : Nat) :
    decBytes n = if n < 10 then [48 + n] else decBytes (n / 10) ++ [48 + n % 10] := by
  rw [decBytes]
  match n with
  | 0 => simp [decBytesAux]
  | n + 1 =>
    rw [decBytesAux]
    split
    · simp
    · rw [decBytes]
      have hlt : (n + 1) / 10 ≤ n :=
        Nat.le_of_lt_succ (Nat.div_lt_self (by omega) (by omega))
      rw [decBytesAux_irrel ((n + 1) / 10) n ((n + 1) / 10) hlt (by omega)]

theorem decBytes_ne_nil (n : Nat) : decBytes n ≠ [] := by
  rw [decBytes_eq]
  split <;> simp

theorem decBytes_digits (n : Nat) : ∀ b ∈ decBytes n, 48 ≤ b ∧ b ≤ 57 := by
  induction n using Nat.strong_induction_on with
  | _ n ih =>
    rw [decBytes_eq]
    split
    · intro b hb
      simp only [List.mem_singleton] at hb
      omega
    · intro b hb
      rcases List.mem_append.mp hb with h | h
      · exact ih (n / 10) (Nat.div_lt_self (by omega) (by omega)) b h
      · simp only [List.mem_singleton] at h
        have : n % 10 < 10 := Nat.mod_lt _ (by omega)
        omega

theorem decBytes_isDigit (n : Nat) : ∀ b ∈ decBytes n, isDigitB b = true := by
  intro b hb
  have := decBytes_digits n b hb
  simp [isDigitB]
  omega

theorem decVal_append_digit (ds : List Nat) (d : Nat) :
    decVal (ds ++ [d]) = decVal ds * 10 + (d - 48) := by
  simp [decVal, List.foldl_append]

theorem decVal_decBytes (n : Nat) : decVal (decBytes n) = n := by
  induction n using Nat.strong_induction_on with
  | _ n ih =>
    rw [decBytes_eq]
    split
    · simp [decVal]
    · rw [decVal_append_digit, ih (n / 10) (Nat.div_lt_self (by omega) (by omega))]
      omega

theorem decBytes_injective {m n : Nat} (h : decBytes m = decBytes n) : m = n := by
  have := decVal_decBytes m
  rw [h, decVal_decBytes] at this
  omega

theorem decBytes_head_pos (n : Nat) (hn : 1 ≤ n) :
    ∃ d ds, decBytes n = d :: ds ∧ 49 ≤ d ∧ d ≤ 57 := by
  induction n using Nat.strong_induction_on with
  | _ n ih =>
    rw [decBytes_eq]
    split
    · exact ⟨48 + n, [], rfl, by omega, by omega⟩
    · rename_i h
      obtain ⟨d, ds, hd, h1, h2⟩ :=
        ih (n / 10) (Nat.div_lt_self (by omega) (by omega))
          (by omega)
      exact ⟨d, ds ++ [48 + n % 10], by rw [hd]; simp, h1, h2⟩

theorem leadsWith_append (p r : List Nat) : leadsWith p (p ++ r) = true := by
  induction p with
  | nil => simp [leadsWith]
  | cons a as ih => simp [leadsWith, ih]

theorem occursIn_append (a p b : List Nat) : occursIn p (a ++ p ++ b) = true := by
  induction a with
  | nil =>
    rw [occursIn.eq_def]
    simp [leadsWith_append]
  | cons x xs ih =>
    rw [occursIn.eq_def]
    simp only [List.cons_append, Bool.or_eq_true]
    right
    exact ih

theorem takeWhile_append_stop {p : Nat → Bool} (xs : List Nat) (y : Nat)
    (ys : List Nat) (hxs : ∀ x ∈ xs, p x = true) (hy : p y = false) :
    (xs ++ y :: ys).takeWhile p = xs := by
  induction xs with
  | nil => simp [List.takeWhile, hy]
  | cons a as ih =>
    have ha : p a = true := hxs a (by simp)
    simp only [List.cons_append, List.takeWhile_cons, ha]
    simp [ih fun x hx => hxs x (by simp [hx])]

theorem parseByteStr_round (s r : List Nat) :
    parseByteStr (decBytes s.length ++ 58 :: (s ++ r)) = .ok (s, r) := by
  have htw : (decBytes s.length ++ 58 :: (s ++ r)).takeWhile isDigitB
      = decBytes s.length :=
    takeWhile_append_stop _ _ _ (decBytes_isDigit _) (by simp [isDigitB])
  have hnil : ¬ (decBytes s.length = []) := decBytes_ne_nil s.length
  have hlt : ¬ ((s ++ r).length < s.length) := by simp
  simp [parseByteStr, htw, hnil, hlt, List.drop_left, List.take_left,
    decVal_decBytes]

theorem decBytes_ne_e (n : Nat) : ∀ b ∈ decBytes n, (b != 101) = true := by
  intro b hb
  have := decBytes_digits n b hb
  simp
  omega

theorem intTokenValid_decBytes (n : Nat) : intTokenValid (decBytes n) = true := by
  rcases Nat.eq_zero_or_pos n with h | h
  · subst h
    rw [decBytes_eq]
    simp [intTokenValid, isDigitB]
  · obtain ⟨d, ds, hd, h1, h2⟩ := decBytes_head_pos n h
    have hall : ∀ b ∈ d :: ds, isDigitB b = true := by
      rw [← hd]; exact decBytes_isDigit n
    rw [hd]
    cases ds with
    | nil => simp [intTokenValid, isDigitB]; omega
    | cons e es =>
      have h45 : d ≠ 45 := by omega
      have he : isDigitB e = true := hall e (by simp)
      have hes : es.all isDigitB = true :=
        List.all_eq_true.mpr fun x hx => hall x (by simp [hx])
      simp [intTokenValid, h45, he, hes]
      omega

theorem parseIntTok_round (t r : List Nat) (hv : intTokenValid t = true)
    (hne : ∀ b ∈ t, (b != 101) = true) :
    parseIntTok (105 :: (t ++ 101 :: r)) = .ok (t, r) := by
  have htw : (t ++ 101 :: r).takeWhile (fun b => b != 101) = t :=
    takeWhile_append_stop _ _ _ hne (by simp)
  rw [parseIntTok]
  simp [htw, List.drop_left, hv]

theorem parseIntTok_round_nat (v : Nat) (r : List Nat) :
    parseIntTok (105 :: (decBytes v ++ 101 :: r)) = .ok (decBytes v, r) :=
  parseIntTok_round _ _ (intTokenValid_decBytes v) (decBytes_ne_e v)

theorem usizeFromTok_decBytes (v : Nat) (hv : v < 18446744073709551616) :
    usizeFromTok (decBytes v) = some v := by
  have hall : (decBytes v).all isDigitB = true :=
    List.all_eq_true.mpr (decBytes_isDigit v)
  have hempty : (decBytes v).isEmpty = false := by
    cases h : decBytes v with
    | nil => exact absurd h (decBytes_ne_nil v)
    | cons d ds => rfl
  simp [usizeFromTok, hempty, hall, decVal_decBytes, hv]

theorem encLenPrefixed_append (s r : List Nat) :
    encLenPrefixed s ++ r = decBytes s.length ++ 58 :: (s ++ r) := by
  simp [encLenPrefixed]

theorem intTokenValid_intBytes (z : Int) : intTokenValid (intBytes z) = true := by
  rw [intBytes]
  split
  · rename_i hz
    have : 1 ≤ z.natAbs := by omega
    obtain ⟨d, ds, hd, h1, h2⟩ := decBytes_head_pos z.natAbs this
    have hall : ∀ b ∈ d :: ds, isDigitB b = true := by
      rw [← hd]; exact decBytes_isDigit _
    rw [hd, intTokenValid]
    have hds : (d :: ds).all isDigitB = true := List.all_eq_true.mpr hall
    simp [hds]
    omega
  · exact intTokenValid_decBytes _

theorem intBytes_ne_e (z : Int) : ∀ b ∈ intBytes z, (b != 101) = true := by
  rw [intBytes]
  split
  · intro b hb
    rcases List.mem_cons.mp hb with h | h
    · simp [h]
    · exact decBytes_ne_e _ b h
  · exact decBytes_ne_e _

theorem parseIntTok_round_int (z : Int) (r : List Nat) :
    parseIntTok (105 :: (intBytes z ++ 101 :: r)) = .ok (intBytes z, r) :=
  parseIntTok_round _ _ (intTokenValid_intBytes z) (intBytes_ne_e z)

theorem decBytes_cons (n : Nat) : ∃ d ds, decBytes n = d :: ds := by
  cases h : decBytes n with
  | nil => exact absurd h (decBytes_ne_nil n)
  | cons d ds => exact ⟨d, ds, rfl⟩

theorem decBytes_len_pos (n : Nat) : 0 < (decBytes n).length := by
  obtain ⟨d, ds, hd⟩ := decBytes_cons n
  simp [hd]

mutual

theorem sizeBV_lt_enc : ∀ v : BVal, sizeBV v < (encodeBVal v).length
  | .int z => by simp [sizeBV, encodeBVal]
  | .bytes s => by
    have := decBytes_len_pos s.length
    simp [sizeBV, encodeBVal, encLenPrefixed]
  | .list xs => by
    have := sizeBL_lt_enc xs
    simp [sizeBV, encodeBVal]
    omega
  | .dict ps => by
    have := sizeBP_lt_enc ps
    simp [sizeBV, encodeBVal]
    omega

theorem sizeBL_lt_enc : ∀ xs : BList, sizeBL xs < (encodeBSeq xs).length
  | .nil => by simp [sizeBL, encodeBSeq]
  | .cons x xs => by
    have h1 := sizeBV_lt_enc x
    have h2 := sizeBL_lt_enc xs
    simp [sizeBL, encodeBSeq]
    omega

theorem sizeBP_lt_enc : ∀ ps : BPairs, sizeBP ps < (encodeBPairs ps).length
  | .nil => by simp [sizeBP, encodeBPairs]
  | .cons k v ps => by
    have h1 := sizeBV_lt_enc v
    have h2 := sizeBP_lt_enc ps
    simp [sizeBP, encodeBPairs]
    omega

end

theorem encodeBVal_head (v : BVal) :
    ∃ b t, encodeBVal v = b :: t ∧ b ≠ 101 := by
  cases v with
  | int z => exact ⟨105, _, rfl, by omega⟩
  | bytes s =>
    obtain ⟨d, ds, hd⟩ := decBytes_cons s.length
    have hdig := decBytes_digits s.length d (by rw [hd]; simp)
    exact ⟨d, ds ++ 58 :: s, by simp [encodeBVal, encLenPrefixed, hd], by omega⟩
  | list xs => exact ⟨108, _, rfl, by omega⟩
  | dict ps => exact ⟨100, _, rfl, by omega⟩

theorem skip_correct (f : Nat) :
    (∀ v r, sizeBV v < f → skipObj f (encodeBVal v ++ r) = some r) ∧
    (∀ xs r, sizeBL xs < f → skipSeq f (encodeBSeq xs ++ r) = some r) ∧
    (∀ ps r, sizeBP ps < f → skipPairs f (encodeBPairs ps ++ r) = some r) := by
  induction f with
  | zero =>
    exact ⟨fun v r h => absurd h (by omega), fun xs r h => absurd h (by omega),
      fun ps r h => absurd h (by omega)⟩
  | succ f ih =>
    obtain ⟨ihO, ihS, ihP⟩ := ih
    refine ⟨?_, ?_, ?_⟩
    · intro v r hv
      cases v with
      | int z =>
        have hEq : encodeBVal (.int z) ++ r = 105 :: (intBytes z ++ 101 :: r) := by
          simp [encodeBVal]
        rw [hEq]
        simp [skipObj, parseIntTok_round_int]
      | bytes s =>
        obtain ⟨d, ds, hd⟩ := decBytes_cons s.length
        have hdig : isDigitB d = true := decBytes_isDigit _ d (by rw [hd]; simp)
        have hrange := decBytes_digits s.length d (by rw [hd]; simp)
        have hEq : encodeBVal (.bytes s) ++ r = d :: (ds ++ 58 :: (s ++ r)) := by
          simp [encodeBVal, encLenPrefixed, hd]
        have hEq2 : d :: (ds ++ 58 :: (s ++ r))
            = decBytes s.length ++ 58 :: (s ++ r) := by
          simp [hd]
        rw [hEq, skipObj]
        have h105 : d ≠ 105 := by omega
        have h108 : d ≠ 108 := by omega
        have h100 : d ≠ 100 := by omega
        simp only [h105, h108, h100, if_false, hdig, if_true, ite_false, ite_true]
        rw [hEq2, parseByteStr_round]
      | list xs =>
        have hEq : encodeBVal (.list xs) ++ r = 108 :: (encodeBSeq xs ++ r) := by
          simp [encodeBVal]
        rw [hEq, skipObj]
        have hsz : sizeBL xs < f := by
          simp [sizeBV] at hv
          omega
        simp [ihS xs r hsz]
      | dict ps =>
        have hEq : encodeBVal (.dict ps) ++ r = 100 :: (encodeBPairs ps ++ r) := by
          simp [encodeBVal]
        rw [hEq, skipObj]
        have hsz : sizeBP ps < f := by
          simp [sizeBV] at hv
          omega
        simp [ihP ps r hsz]
    · intro xs r hxs
      cases xs with
      | nil =>
        have hEq : encodeBSeq .nil ++ r = 101 :: r := by simp [encodeBSeq]
        rw [hEq, skipSeq]
        simp
      | cons x xs =>
        obtain ⟨b, t, hb, hb101⟩ := encodeBVal_head x
        have hEq : encodeBSeq (.cons x xs) ++ r
            = b :: (t ++ (encodeBSeq xs ++ r)) := by
          simp [encodeBSeq, hb]
        have hEq2 : b :: (t ++ (encodeBSeq xs ++ r))
            = encodeBVal x ++ (encodeBSeq xs ++ r) := by
          simp [hb]
        have hszx : sizeBV x < f := by
          simp [sizeBL] at hxs
          omega
        have hszs : sizeBL xs < f := by
          simp [sizeBL] at hxs
          omega
        rw [hEq, skipSeq]
        simp only [hb101, if_false, ite_false]
        rw [hEq2, ihO x _ hszx]
        exact ihS xs r hszs
    · intro ps r hps
      cases ps with
      | nil =>
        have hEq : encodeBPairs .nil ++ r = 101 :: r := by simp [encodeBPairs]
        rw [hEq, skipPairs]
        simp
      | cons k v ps =>
        obtain ⟨d, ds, hd⟩ := decBytes_cons k.length
        have hdig := decBytes_digits k.length d (by rw [hd]; simp)
        have hEq : encodeBPairs (.cons k v ps) ++ r
            = d :: (ds ++ 58 :: (k ++ (encodeBVal v ++ (encodeBPairs ps ++ r)))) := by
          simp [encodeBPairs, encLenPrefixed, hd]
        have hEq2 : d :: (ds ++ 58 :: (k ++ (encodeBVal v ++ (encodeBPairs ps ++ r))))
            = decBytes k.length ++ 58 :: (k ++ (encodeBVal v ++ (encodeBPairs ps ++ r))) := by
          simp [hd]
        have h101 : d ≠ 101 := by omega
        have hszv : sizeBV v < f := by
          simp [sizeBP] at hps
          omega
        have hszp : sizeBP ps < f := by
          simp [sizeBP] at hps
          omega
        rw [hEq, skipPairs]
        simp only [h101, if_false, ite_false]
        rw [hEq2, parseByteStr_round]
        simp [ihO v _ hszv, ihP ps r hszp]

theorem skipObj_encode (v : BVal) (r : List Nat) :
    skipObj (encodeBVal v ++ r).length (encodeBVal v ++ r) = some r := by
  have h1 := sizeBV_lt_enc v
  have h2 : (encodeBVal v).length ≤ (encodeBVal v ++ r).length := by simp
  exact (skip_correct _).1 v r (by omega)

theorem chunksAux_irrel (k : Nat) (hk : 0 < k) : ∀ n l f g, l.length ≤ n →
    l.length ≤ f → l.length ≤ g → chunksAux k f l = chunksAux k g l := by
  intro n
  induction n using Nat.strong_induction_on with
  | _ n ih =>
    intro l f g hn hf hg
    match f, g with
    | 0, 0 => rfl
    | 0, g + 1 =>
      have : l = [] := by
        cases l with
        | nil => rfl
        | cons a as => simp at hf
      subst this
      simp [chunksAux]
    | f + 1, 0 =>
      have : l = [] := by
        cases l with
        | nil => rfl
        | cons a as => simp at hg
      subst this
      simp [chunksAux]
    | f + 1, g + 1 =>
      rw [chunksAux, chunksAux]
      split
      · rfl
      · rename_i hne
        have hpos : 0 < l.length := List.length_pos.mpr hne
        have hdl : (l.drop k).length = l.length - k := by
          simp only [List.length_drop]
        have hlt : (l.drop k).length < n := by omega
        rw [ih (l.drop k).length hlt (l.drop k) f g le_rfl (by omega) (by omega)]

theorem sha1_length (msg : List Nat) : (sha1 msg).length = 20 := by
  simp [sha1, wordBytes]

theorem chunks20_eq (l : List Nat) :
    chunks20 l = if l = [] then [] else l.take 20 :: chunks20 (l.drop 20) := by
  cases l with
  | nil => simp [chunks20, chunksAux]
  | cons a as =>
    have h1 : chunks20 (a :: as) = chunksAux 20 (as.length + 1) (a :: as) := by
      rw [chunks20]
      simp
    rw [h1, chunksAux]
    simp only [if_neg (List.cons_ne_nil a as)]
    rw [chunks20, chunksAux_irrel 20 (by omega) (as.length + 1) ((a :: as).drop 20)
      ((a :: as).drop 20).length as.length
      (by simp only [List.length_drop, List.length_cons]; omega) le_rfl
      (by simp only [List.length_drop, List.length_cons]; omega)]

theorem infoLoop_dispatch (f : Nat) (k R : List Nat) (acc : InfoAcc) :
    infoLoop (f + 1) (encLenPrefixed k ++ R) acc =
      (if k = kPieces then
        match parseByteStr R with
        | .error e => .error e
        | .ok (v, s2) => infoLoop f s2 { acc with pieces := some v }
      else if k = kPieceLen then
        match parseIntTok R with
        | .error e => .error e
        | .ok (tok, s2) =>
          match usizeFromTok tok with
          | none => .error .parseIntErr
          | some v => infoLoop f s2 { acc with piece_length := some v }
      else if k = kLen then
        match parseIntTok R with
        | .error e => .error e
        | .ok (tok, s2) =>
          match usizeFromTok tok with
          | none => .error .parseIntErr
          | some v => infoLoop f s2 { acc with length := some v }
      else if k = kName then
        match parseByteStr R with
        | .error e => .error e
        | .ok (v, s2) =>
          if isValidUtf8 v then infoLoop f s2 { acc with name := some v }
          else .error .invalidUtf8
      else
        match skipObj R.length R with
        | none => .error .skipFail
        | some s2 => infoLoop f s2 acc) := by
  obtain ⟨d, ds, hd⟩ := decBytes_cons k.length
  have hrange := decBytes_digits k.length d (by rw [hd]; simp)
  have hdig : isDigitB d = true := decBytes_isDigit _ d (by rw [hd]; simp)
  have h101 : d ≠ 101 := by omega
  have hEq : encLenPrefixed k ++ R = d :: (ds ++ 58 :: (k ++ R)) := by
    simp [encLenPrefixed, hd]
  have hkey : parseByteStr (d :: (ds ++ 58 :: (k ++ R))) = .ok (k, R) := by
    have h := parseByteStr_round k R
    rw [hd] at h
    simpa using h
  rw [hEq, infoLoop]
  simp only [h101, hdig, hkey, if_false, if_true, ite_false, ite_true]

theorem infoLoop_step_length (f v : Nat) (tail : List Nat) (acc : InfoAcc)
    (hv : v < 18446744073709551616) :
    infoLoop (f + 1) (encIntField kLen v ++ tail) acc
      = infoLoop f tail { acc with length := some v } := by
  have hEq : encIntField kLen v ++ tail
      = encLenPrefixed kLen ++ (105 :: (decBytes v ++ 101 :: tail)) := by
    simp [encIntField]
  have h1 : (kLen = kPieces) = False := by decide
  have h2 : (kLen = kPieceLen) = False := by decide
  rw [hEq, infoLoop_dispatch]
  simp [h1, h2, parseIntTok_round_nat, usizeFromTok_decBytes v hv]

theorem infoLoop_step_pieceLen (f v : Nat) (tail : List Nat) (acc : InfoAcc)
    (hv : v < 18446744073709551616) :
    infoLoop (f + 1) (encIntField kPieceLen v ++ tail) acc
      = infoLoop f tail { acc with piece_length := some v } := by
  have hEq : encIntField kPieceLen v ++ tail
      = encLenPrefixed kPieceLen ++ (105 :: (decBytes v ++ 101 :: tail)) := by
    simp [encIntField]
  have h1 : (kPieceLen = kPieces) = False := by decide
  rw [hEq, infoLoop_dispatch]
  simp [h1, parseIntTok_round_nat, usizeFromTok_decBytes v hv]

theorem infoLoop_step_pieces (f : Nat) (s tail : List Nat) (acc : InfoAcc) :
    infoLoop (f + 1) (encBytesField kPieces s ++ tail) acc
      = infoLoop f tail { acc with pieces := some s } := by
  have hEq : encBytesField kPieces s ++ tail
      = encLenPrefixed kPieces ++ (decBytes s.length ++ 58 :: (s ++ tail)) := by
    simp [encBytesField, encLenPrefixed]
  rw [hEq, infoLoop_dispatch]
  simp [parseByteStr_round]

theorem infoLoop_step_name (f : Nat) (s tail : List Nat) (acc : InfoAcc)
    (hs : isValidUtf8 s = true) :
    infoLoop (f + 1) (encStrField kName s ++ tail) acc
      = infoLoop f tail { acc with name := some s } := by
  have hEq : encStrField kName s ++ tail
      = encLenPrefixed kName ++ (decBytes s.length ++ 58 :: (s ++ tail)) := by
    simp [encStrField, encLenPrefixed]
  have h1 : (kName = kPieces) = False := by decide
  have h2 : (kName = kPieceLen) = False := by decide
  have h3 : (kName = kLen) = False := by decide
  rw [hEq, infoLoop_dispatch]
  simp [h1, h2, h3, parseByteStr_round, hs]

theorem infoLoop_step_unknown (f : Nat) (k : List Nat) (v : BVal)
    (tail : List Nat) (acc : InfoAcc) (h1 : k ≠ kPieces) (h2 : k ≠ kPieceLen)
    (h3 : k ≠ kLen) (h4 : k ≠ kName) :
    infoLoop (f + 1) (encLenPrefixed k ++ (encodeBVal v ++ tail)) acc
      = infoLoop f tail acc := by
  have hskip : skipObj ((encodeBVal v).length + tail.length) (encodeBVal v ++ tail)
      = some tail := by
    have h := skipObj_encode v tail
    simpa using h
  rw [infoLoop_dispatch]
  simp [h1, h2, h3, h4, hskip]

theorem infoLoop_end (f : Nat) (rest : List Nat) (acc : InfoAcc) :
    infoLoop (f + 1) (101 :: rest) acc = .ok (acc, rest) := by
  simp [infoLoop]

theorem decodeInfoObj_round (i : BencodeInfo) (hname : isValidUtf8 i.name = true)
    (hlen : i.length < 18446744073709551616)
    (hpl : i.piece_length < 18446744073709551616) :
    decodeInfoObj (encodeInfo i) = .ok (i, []) := by
  have hb4 : 4 ≤ (encIntField kLen i.length ++ (encStrField kName i.name ++
      (encIntField kPieceLen i.piece_length ++
        (encBytesField kPieces i.pieces ++ [101])))).length := by
    simp only [encIntField, encStrField, encBytesField, encLenPrefixed,
      List.length_append, List.length_cons, List.length_nil]
    omega
  generalize hg : (encIntField kLen i.length ++ (encStrField kName i.name ++
      (encIntField kPieceLen i.piece_length ++
        (encBytesField kPieces i.pieces ++ [101])))).length - 4 = g at *
  have hloop : ∀ acc : InfoAcc, infoLoop (g + 5)
      (encIntField kLen i.length ++ (encStrField kName i.name ++
        (encIntField kPieceLen i.piece_length ++
          (encBytesField kPieces i.pieces ++ [101])))) acc
      = .ok (⟨some i.pieces, some i.piece_length, some i.length, some i.name⟩, []) := by
    intro acc
    have e1 : g + 5 = (g + 4) + 1 := by omega
    rw [e1, infoLoop_step_length _ _ _ _ hlen]
    have e2 : g + 4 = (g + 3) + 1 := by omega
    rw [e2, infoLoop_step_name _ _ _ _ hname]
    have e3 : g + 3 = (g + 2) + 1 := by omega
    rw [e3, infoLoop_step_pieceLen _ _ _ _ hpl]
    have e4 : g + 2 = (g + 1) + 1 := by omega
    rw [e4, infoLoop_step_pieces]
    rw [infoLoop_end]
  have hfuel : (encIntField kLen i.length ++ (encStrField kName i.name ++
      (encIntField kPieceLen i.piece_length ++
        (encBytesField kPieces i.pieces ++ [101])))).length + 1 = g + 5 := by omega
  show decodeInfoObj (100 :: (encIntField kLen i.length ++ (encStrField kName i.name ++
      (encIntField kPieceLen i.piece_length ++
        (encBytesField kPieces i.pieces ++ [101]))))) = .ok (i, [])
  rw [decodeInfoObj, hfuel, hloop ⟨none, none, none, none⟩]
  simp [buildInfo]

theorem decodeInfoDoc_round (i : BencodeInfo) (hname : isValidUtf8 i.name = true)
    (hlen : i.length < 18446744073709551616)
    (hpl : i.piece_length < 18446744073709551616) :
    decodeInfoDoc (encodeInfo i) = .ok i := by
  rw [decodeInfoDoc, decodeInfoObj_round i hname hlen hpl]

theorem infoLoop_pairs : ∀ (ps : List (List Nat × BVal)) (g : Nat)
    (rest : List Nat) (acc : InfoAcc), (∀ p ∈ ps, ipairOk p) →
    infoLoop (g + ps.length + 1) (serializeIPairs ps ++ 101 :: rest) acc
      = .ok (ps.foldl stepInfo acc, rest) := by
  intro ps
  induction ps with
  | nil =>
    intro g rest acc _
    simp only [serializeIPairs, List.nil_append, List.length_nil, Nat.add_zero,
      List.foldl_nil]
    exact infoLoop_end g rest acc
  | cons p ps ih =>
    intro g rest acc hok
    obtain ⟨k, v⟩ := p
    have hokp := hok (k, v) (by simp)
    have hoks : ∀ q ∈ ps, ipairOk q := fun q hq => hok q (by simp [hq])
    have efuel : g + (ps.length + 1) + 1 = (g + ps.length + 1) + 1 := by omega
    simp only [List.length_cons, List.foldl_cons]
    rw [efuel]
    by_cases hk1 : k = kPieces
    · obtain ⟨s, hval⟩ := hokp.1 hk1
      subst hval
      subst hk1
      have hEq : serializeIPairs ((kPieces, BVal.bytes s) :: ps) ++ 101 :: rest
          = encBytesField kPieces s ++ (serializeIPairs ps ++ 101 :: rest) := by
        simp [serializeIPairs, encodeBVal, encBytesField, List.append_assoc]
      rw [hEq, infoLoop_step_pieces, ih (g) rest _ hoks]
      simp [stepInfo]
    · by_cases hk2 : k = kPieceLen
      · obtain ⟨z, hval, hz0, hzlt⟩ := hokp.2.1 hk2
        subst hval
        subst hk2
        have hib : intBytes z = decBytes z.toNat := by
          rw [intBytes, if_neg (by omega)]
        have hEq : serializeIPairs ((kPieceLen, BVal.int z) :: ps) ++ 101 :: rest
            = encIntField kPieceLen z.toNat ++ (serializeIPairs ps ++ 101 :: rest) := by
          simp [serializeIPairs, encodeBVal, encIntField, hib, List.append_assoc]
        have hvn : z.toNat < 18446744073709551616 := by omega
        rw [hEq, infoLoop_step_pieceLen _ _ _ _ hvn, ih (g) rest _ hoks]
        have hbv : bvUsize (BVal.int z) = some z.toNat := by
          simp [bvUsize]
          omega
        have hk1' : (kPieceLen = kPieces) = False := by decide
        simp [stepInfo, hbv, hk1']
      · by_cases hk3 : k = kLen
        · obtain ⟨z, hval, hz0, hzlt⟩ := hokp.2.2.1 hk3
          subst hval
          subst hk3
          have hib : intBytes z = decBytes z.toNat := by
            rw [intBytes, if_neg (by omega)]
          have hEq : serializeIPairs ((kLen, BVal.int z) :: ps) ++ 101 :: rest
              = encIntField kLen z.toNat ++ (serializeIPairs ps ++ 101 :: rest) := by
            simp [serializeIPairs, encodeBVal, encIntField, hib, List.append_assoc]
          have hvn : z.toNat < 18446744073709551616 := by omega
          rw [hEq, infoLoop_step_length _ _ _ _ hvn, ih (g) rest _ hoks]
          have hbv : bvUsize (BVal.int z) = some z.toNat := by
            simp [bvUsize]
            omega
          have hk2' : (kLen = kPieceLen) = False := by decide
          have hk1' : (kLen = kPieces) = False := by decide
          simp [stepInfo, hbv, hk1', hk2']
        · by_cases hk4 : k = kName
          · obtain ⟨s, hval, hutf⟩ := hokp.2.2.2 hk4
            subst hval
            subst hk4
            have hEq : serializeIPairs ((kName, BVal.bytes s) :: ps) ++ 101 :: rest
                = encStrField kName s ++ (serializeIPairs ps ++ 101 :: rest) := by
              simp [serializeIPairs, encodeBVal, encStrField, List.append_assoc]
            rw [hEq, infoLoop_step_name _ _ _ _ hutf, ih (g) rest _ hoks]
            have hk1' : (kName = kPieces) = False := by decide
            have hk2' : (kName = kPieceLen) = False := by decide
            have hk3' : (kName = kLen) = False := by decide
            simp [stepInfo, hk1', hk2', hk3']
          · have hEq : serializeIPairs ((k, v) :: ps) ++ 101 :: rest
                = encLenPrefixed k ++ (encodeBVal v ++ (serializeIPairs ps ++ 101 :: rest)) := by
              simp [serializeIPairs, List.append_assoc]
            rw [hEq, infoLoop_step_unknown _ _ _ _ _ hk1 hk2 hk3 hk4,
              ih (g) rest _ hoks]
            simp [stepInfo, hk1, hk2, hk3, hk4]

theorem kdPP : (kPieces = kPieceLen) = False := by decide

theorem kdPL : (kPieces = kLen) = False := by decide

theorem kdPN : (kPieces = kName) = False := by decide

theorem kdLP : (kPieceLen = kPieces) = False := by decide

theorem kdLL : (kPieceLen = kLen) = False := by decide

theorem kdLN : (kPieceLen = kName) = False := by decide

theorem kdNP : (kLen = kPieces) = False := by decide

theorem kdNL : (kLen = kPieceLen) = False := by decide

theorem kdNN : (kLen = kName) = False := by decide

theorem kdMP : (kName = kPieces) = False := by decide

theorem kdML : (kName = kPieceLen) = False := by decide

theorem kdMN : (kName = kLen) = False := by decide

theorem stepInfo_pieces_eq (acc : InfoAcc) (p : List Nat × BVal) (hok : ipairOk p) :
    (stepInfo acc p).pieces = if p.1 = kPieces then bvBytes p.2 else acc.pieces := by
  by_cases h1 : p.1 = kPieces
  · obtain ⟨s, hs⟩ := hok.1 h1
    simp [stepInfo, h1, hs, bvBytes, kdPP, kdPL, kdPN]
  · by_cases h2 : p.1 = kPieceLen
    · cases hbv : bvUsize p.2 <;>
        simp [stepInfo, h1, h2, hbv, kdLP, kdLL, kdLN]
    · by_cases h3 : p.1 = kLen
      · cases hbv : bvUsize p.2 <;>
          simp [stepInfo, h1, h2, h3, hbv, kdNP, kdNL, kdNN]
      · by_cases h4 : p.1 = kName
        · obtain ⟨s, hs, _⟩ := hok.2.2.2 h4
          simp [stepInfo, h1, h2, h3, h4, hs, kdMP, kdML, kdMN]
        · simp [stepInfo, h1, h2, h3, h4]

theorem stepInfo_pieceLen_eq (acc : InfoAcc) (p : List Nat × BVal) (hok : ipairOk p) :
    (stepInfo acc p).piece_length
      = if p.1 = kPieceLen then bvUsize p.2 else acc.piece_length := by
  by_cases h1 : p.1 = kPieces
  · obtain ⟨s, hs⟩ := hok.1 h1
    simp [stepInfo, h1, hs, kdPP, kdPL, kdPN]
  · by_cases h2 : p.1 = kPieceLen
    · obtain ⟨z, hz, hz0, hzlt⟩ := hok.2.1 h2
      have hbv : bvUsize p.2 = some z.toNat := by
        simp [hz, bvUsize]
        omega
      simp [stepInfo, h1, h2, hbv, kdLP, kdLL, kdLN]
    · by_cases h3 : p.1 = kLen
      · cases hbv : bvUsize p.2 <;>
          simp [stepInfo, h1, h2, h3, hbv, kdNP, kdNL, kdNN]
      · by_cases h4 : p.1 = kName
        · obtain ⟨s, hs, _⟩ := hok.2.2.2 h4
          simp [stepInfo, h1, h2, h3, h4, hs, kdMP, kdML, kdMN]
        · simp [stepInfo, h1, h2, h3, h4]

theorem stepInfo_length_eq (acc : InfoAcc) (p : List Nat × BVal) (hok : ipairOk p) :
    (stepInfo acc p).length = if p.1 = kLen then bvUsize p.2 else acc.length := by
  by_cases h1 : p.1 = kPieces
  · obtain ⟨s, hs⟩ := hok.1 h1
    simp [stepInfo, h1, hs, kdPP, kdPL, kdPN]
  · by_cases h2 : p.1 = kPieceLen
    · cases hbv : bvUsize p.2 <;>
        simp [stepInfo, h1, h2, hbv, kdLP, kdLL, kdLN]
    · by_cases h3 : p.1 = kLen
      · obtain ⟨z, hz, hz0, hzlt⟩ := hok.2.2.1 h3
        have hbv : bvUsize p.2 = some z.toNat := by
          simp [hz, bvUsize]
          omega
        simp [stepInfo, h1, h2, h3, hbv, kdNP, kdNL, kdNN]
      · by_cases h4 : p.1 = kName
        · obtain ⟨s, hs, _⟩ := hok.2.2.2 h4
          simp [stepInfo, h1, h2, h3, h4, hs, kdMP, kdML, kdMN]
        · simp [stepInfo, h1, h2, h3, h4]

theorem stepInfo_name_eq (acc : InfoAcc) (p : List Nat × BVal) (hok : ipairOk p) :
    (stepInfo acc p).name = if p.1 = kName then bvBytes p.2 else acc.name := by
  by_cases h1 : p.1 = kPieces
  · obtain ⟨s, hs⟩ := hok.1 h1
    simp [stepInfo, h1, hs, kdPP, kdPL, kdPN]
  · by_cases h2 : p.1 = kPieceLen
    · cases hbv : bvUsize p.2 <;>
        simp [stepInfo, h1, h2, hbv, kdLP, kdLL, kdLN]
    · by_cases h3 : p.1 = kLen
      · cases hbv : bvUsize p.2 <;>
          simp [stepInfo, h1, h2, h3, hbv, kdNP, kdNL, kdNN]
      · by_cases h4 : p.1 = kName
        · obtain ⟨s, hs, _⟩ := hok.2.2.2 h4
          simp [stepInfo, h1, h2, h3, h4, hs, bvBytes, kdMP, kdML, kdMN]
        · simp [stepInfo, h1, h2, h3, h4]

theorem foldl_stepInfo_pieces : ∀ (ps : List (List Nat × BVal)) (acc : InfoAcc),
    (∀ p ∈ ps, ipairOk p) →
    (ps.foldl stepInfo acc).pieces
      = ps.foldl (fun o p => if p.1 = kPieces then bvBytes p.2 else o) acc.pieces := by
  intro ps
  induction ps with
  | nil => intro acc _; rfl
  | cons p ps ih =>
    intro acc hok
    simp only [List.foldl_cons]
    rw [ih _ fun q hq => hok q (by simp [hq]),
      stepInfo_pieces_eq acc p (hok p (by simp))]

theorem foldl_stepInfo_pieceLen : ∀ (ps : List (List Nat × BVal)) (acc : InfoAcc),
    (∀ p ∈ ps, ipairOk p) →
    (ps.foldl stepInfo acc).piece_length
      = ps.foldl (fun o p => if p.1 = kPieceLen then bvUsize p.2 else o) acc.piece_length := by
  intro ps
  induction ps with
  | nil => intro acc _; rfl
  | cons p ps ih =>
    intro acc hok
    simp only [List.foldl_cons]
    rw [ih _ fun q hq => hok q (by simp [hq]),
      stepInfo_pieceLen_eq acc p (hok p (by simp))]

theorem foldl_stepInfo_length : ∀ (ps : List (List Nat × BVal)) (acc : InfoAcc),
    (∀ p ∈ ps, ipairOk p) →
    (ps.foldl stepInfo acc).length
      = ps.foldl (fun o p => if p.1 = kLen then bvUsize p.2 else o) acc.length := by
  intro ps
  induction ps with
  | nil => intro acc _; rfl
  | cons p ps ih =>
    intro acc hok
    simp only [List.foldl_cons]
    rw [ih _ fun q hq => hok q (by simp [hq]),
      stepInfo_length_eq acc p (hok p (by simp))]

theorem foldl_stepInfo_name : ∀ (ps : List (List Nat × BVal)) (acc : InfoAcc),
    (∀ p ∈ ps, ipairOk p) →
    (ps.foldl stepInfo acc).name
      = ps.foldl (fun o p => if p.1 = kName then bvBytes p.2 else o) acc.name := by
  intro ps
  induction ps with
  | nil => intro acc _; rfl
  | cons p ps ih =>
    intro acc hok
    simp only [List.foldl_cons]
    rw [ih _ fun q hq => hok q (by simp [hq]),
      stepInfo_name_eq acc p (hok p (by simp))]

theorem serializeIPairs_len : ∀ ps : List (List Nat × BVal),
    ps.length ≤ (serializeIPairs ps).length := by
  intro ps
  induction ps with
  | nil => simp [serializeIPairs]
  | cons p ps ih =>
    obtain ⟨k, v⟩ := p
    have hk := decBytes_len_pos k.length
    simp only [serializeIPairs, List.length_append, List.length_cons,
      encLenPrefixed]
    omega

/-- Decoding a serialized info dictionary built from an arbitrary pair
list: duplicates are not rejected (the last well-typed occurrence of
each recognized key wins) and unrecognized keys are skipped. -/
theorem decodeInfoDoc_pairs (ps : List (List Nat × BVal))
    (psv nmv : List Nat) (plv lv : Nat)
    (hok : ∀ p ∈ ps, ipairOk p)
    (hp : lastField bvBytes kPieces ps = some psv)
    (hpl : lastField bvUsize kPieceLen ps = some plv)
    (hl : lastField bvUsize kLen ps = some lv)
    (hn : lastField bvBytes kName ps = some nmv) :
    decodeInfoDoc (100 :: (serializeIPairs ps ++ [101])) = .ok ⟨psv, plv, lv, nmv⟩ := by
  have hle : ps.length ≤ (serializeIPairs ps ++ [101]).length := by
    have := serializeIPairs_len ps
    simp only [List.length_append, List.length_cons, List.length_nil]
    omega
  have efuel : (serializeIPairs ps ++ [101]).length + 1
      = ((serializeIPairs ps ++ [101]).length - ps.length) + ps.length + 1 := by
    omega
  have hacc : ps.foldl stepInfo ⟨none, none, none, none⟩
      = ⟨some psv, some plv, some lv, some nmv⟩ := by
    rcases hFE : ps.foldl stepInfo ⟨none, none, none, none⟩ with ⟨a, b, c, d⟩
    have e1 := foldl_stepInfo_pieces ps ⟨none, none, none, none⟩ hok
    have e2 := foldl_stepInfo_pieceLen ps ⟨none, none, none, none⟩ hok
    have e3 := foldl_stepInfo_length ps ⟨none, none, none, none⟩ hok
    have e4 := foldl_stepInfo_name ps ⟨none, none, none, none⟩ hok
    rw [hFE] at e1 e2 e3 e4
    simp only [lastField] at hp hpl hl hn
    dsimp only at e1 e2 e3 e4
    rw [hp] at e1
    rw [hpl] at e2
    rw [hl] at e3
    rw [hn] at e4
    rw [e1, e2, e3, e4]
  rw [decodeInfoDoc, decodeInfoObj, efuel,
    infoLoop_pairs ps _ [] ⟨none, none, none, none⟩ hok, hacc]
  simp [buildInfo]

theorem encodeBPairs_serialize : ∀ dps : BPairs,
    encodeBPairs dps = serializeIPairs (bpairsToList dps) ++ [101]
  | .nil => by simp [encodeBPairs, bpairsToList, serializeIPairs]
  | .cons k v ps => by
    simp [encodeBPairs, bpairsToList, serializeIPairs,
      encodeBPairs_serialize ps]

theorem decodeInfoObj_dict (dps : BPairs) (inf : BencodeInfo) (r : List Nat)
    (h : infoObjOk dps inf) :
    decodeInfoObj (encodeBVal (.dict dps) ++ r) = .ok (inf, r) := by
  obtain ⟨hok, hp, hpl, hl, hn⟩ := h
  have hshape : encodeBVal (.dict dps) ++ r
      = 100 :: (serializeIPairs (bpairsToList dps) ++ 101 :: r) := by
    simp [encodeBVal, encodeBPairs_serialize dps]
  have hle : (bpairsToList dps).length
      ≤ (serializeIPairs (bpairsToList dps) ++ 101 :: r).length := by
    have := serializeIPairs_len (bpairsToList dps)
    simp only [List.length_append, List.length_cons]
    omega
  have efuel : (serializeIPairs (bpairsToList dps) ++ 101 :: r).length + 1
      = ((serializeIPairs (bpairsToList dps) ++ 101 :: r).length
          - (bpairsToList dps).length) + (bpairsToList dps).length + 1 := by
    omega
  have hacc : (bpairsToList dps).foldl stepInfo ⟨none, none, none, none⟩
      = ⟨some inf.pieces, some inf.piece_length, some inf.length, some inf.name⟩ := by
    rcases hFE : (bpairsToList dps).foldl stepInfo ⟨none, none, none, none⟩
      with ⟨a, b, c, d⟩
    have e1 := foldl_stepInfo_pieces (bpairsToList dps) ⟨none, none, none, none⟩ hok
    have e2 := foldl_stepInfo_pieceLen (bpairsToList dps) ⟨none, none, none, none⟩ hok
    have e3 := foldl_stepInfo_length (bpairsToList dps) ⟨none, none, none, none⟩ hok
    have e4 := foldl_stepInfo_name (bpairsToList dps) ⟨none, none, none, none⟩ hok
    rw [hFE] at e1 e2 e3 e4
    simp only [lastField] at hp hpl hl hn
    dsimp only at e1 e2 e3 e4
    rw [hp] at e1
    rw [hpl] at e2
    rw [hl] at e3
    rw [hn] at e4
    rw [e1, e2, e3, e4]
  rw [hshape, decodeInfoObj, efuel,
    infoLoop_pairs (bpairsToList dps) _ r ⟨none, none, none, none⟩ hok, hacc]
  simp [buildInfo]

theorem dictInfoDec_ok (dps : BPairs) (inf : BencodeInfo)
    (h : infoObjOk dps inf) : dictInfoDec (.dict dps) = some inf := by
  have h1 := decodeInfoObj_dict dps inf [] h
  rw [List.append_nil] at h1
  simp [dictInfoDec, decodeInfoDoc, h1]

theorem kdAI : (kAnnounce = kInfo) = False := by decide

theorem kdIA : (kInfo = kAnnounce) = False := by decide

theorem torrentLoop_dispatch (f : Nat) (k R : List Nat) (acc : TorrAcc) :
    torrentLoop (f + 1) (encLenPrefixed k ++ R) acc =
      (if k = kAnnounce then
        match parseByteStr R with
        | .error e => .error e
        | .ok (v, s2) =>
          if isValidUtf8 v then torrentLoop f s2 { acc with announce := some v }
          else .error .invalidUtf8
      else if k = kInfo then
        match decodeInfoObj R with
        | .error e => .error e
        | .ok (i, s2) => torrentLoop f s2 { acc with info := some i }
      else
        match skipObj R.length R with
        | none => .error .skipFail
        | some s2 => torrentLoop f s2 acc) := by
  obtain ⟨d, ds, hd⟩ := decBytes_cons k.length
  have hrange := decBytes_digits k.length d (by rw [hd]; simp)
  have hdig : isDigitB d = true := decBytes_isDigit _ d (by rw [hd]; simp)
  have h101 : d ≠ 101 := by omega
  have hEq : encLenPrefixed k ++ R = d :: (ds ++ 58 :: (k ++ R)) := by
    simp [encLenPrefixed, hd]
  have hkey : parseByteStr (d :: (ds ++ 58 :: (k ++ R))) = .ok (k, R) := by
    have h := parseByteStr_round k R
    rw [hd] at h
    simpa using h
  rw [hEq, torrentLoop]
  simp only [h101, hdig, hkey, if_false, if_true, ite_false, ite_true]

theorem torrentLoop_step_announce (f : Nat) (s tail : List Nat) (acc : TorrAcc)
    (hs : isValidUtf8 s = true) :
    torrentLoop (f + 1) (encBytesField kAnnounce s ++ tail) acc
      = torrentLoop f tail { acc with announce := some s } := by
  have hEq : encBytesField kAnnounce s ++ tail
      = encLenPrefixed kAnnounce ++ (decBytes s.length ++ 58 :: (s ++ tail)) := by
    simp [encBytesField, encLenPrefixed]
  rw [hEq, torrentLoop_dispatch]
  simp [parseByteStr_round, hs]

theorem torrentLoop_step_info (f : Nat) (dps : BPairs) (inf : BencodeInfo)
    (tail : List Nat) (acc : TorrAcc) (h : infoObjOk dps inf) :
    torrentLoop (f + 1) (encLenPrefixed kInfo ++ (encodeBVal (.dict dps) ++ tail)) acc
      = torrentLoop f tail { acc with info := some inf } := by
  rw [torrentLoop_dispatch]
  simp [kdIA, decodeInfoObj_dict dps inf tail h]

theorem torrentLoop_step_unknown (f : Nat) (k : List Nat) (v : BVal)
    (tail : List Nat) (acc : TorrAcc) (h1 : k ≠ kAnnounce) (h2 : k ≠ kInfo) :
    torrentLoop (f + 1) (encLenPrefixed k ++ (encodeBVal v ++ tail)) acc
      = torrentLoop f tail acc := by
  have hskip : skipObj ((encodeBVal v).length + tail.length) (encodeBVal v ++ tail)
      = some tail := by
    have h := skipObj_encode v tail
    simpa using h
  rw [torrentLoop_dispatch]
  simp [h1, h2, hskip]

theorem torrentLoop_end (f : Nat) (rest : List Nat) (acc : TorrAcc) :
    torrentLoop (f + 1) (101 :: rest) acc = .ok (acc, rest) := by
  simp [torrentLoop]

theorem torrentLoop_pairs : ∀ (tps : List (List Nat × BVal)) (g : Nat)
    (rest : List Nat) (acc : TorrAcc), (∀ p ∈ tps, tpairOk p) →
    torrentLoop (g + tps.length + 1) (serializeIPairs tps ++ 101 :: rest) acc
      = .ok (tps.foldl stepTorrent acc, rest) := by
  intro tps
  induction tps with
  | nil =>
    intro g rest acc _
    simp only [serializeIPairs, List.nil_append, List.length_nil, Nat.add_zero,
      List.foldl_nil]
    exact torrentLoop_end g rest acc
  | cons p ps ih =>
    intro g rest acc hok
    obtain ⟨k, v⟩ := p
    have hokp := hok (k, v) (by simp)
    have hoks : ∀ q ∈ ps, tpairOk q := fun q hq => hok q (by simp [hq])
    have efuel : g + (ps.length + 1) + 1 = (g + ps.length + 1) + 1 := by omega
    simp only [List.length_cons, List.foldl_cons]
    rw [efuel]
    by_cases hk1 : k = kAnnounce
    · obtain ⟨s, hval, hutf⟩ := hokp.1 hk1
      subst hval
      subst hk1
      have hEq : serializeIPairs ((kAnnounce, BVal.bytes s) :: ps) ++ 101 :: rest
          = encBytesField kAnnounce s ++ (serializeIPairs ps ++ 101 :: rest) := by
        simp [serializeIPairs, encodeBVal, encBytesField, List.append_assoc]
      rw [hEq, torrentLoop_step_announce _ _ _ _ hutf, ih (g) rest _ hoks]
      simp [stepTorrent]
    · by_cases hk2 : k = kInfo
      · obtain ⟨dps, inf, hval, hobj⟩ := hokp.2 hk2
        subst hval
        subst hk2
        have hEq : serializeIPairs ((kInfo, BVal.dict dps) :: ps) ++ 101 :: rest
            = encLenPrefixed kInfo ++ (encodeBVal (.dict dps)
              ++ (serializeIPairs ps ++ 101 :: rest)) := by
          simp [serializeIPairs, List.append_assoc]
        rw [hEq, torrentLoop_step_info _ _ _ _ _ hobj, ih (g) rest _ hoks]
        have hdec := dictInfoDec_ok dps inf hobj
        simp [stepTorrent, kdIA, hdec]
      · have hEq : serializeIPairs ((k, v) :: ps) ++ 101 :: rest
            = encLenPrefixed k ++ (encodeBVal v ++ (serializeIPairs ps ++ 101 :: rest)) := by
          simp [serializeIPairs, List.append_assoc]
        rw [hEq, torrentLoop_step_unknown _ _ _ _ _ hk1 hk2, ih (g) rest _ hoks]
        simp [stepTorrent, hk1, hk2]

theorem stepTorrent_announce_eq (acc : TorrAcc) (p : List Nat × BVal)
    (hok : tpairOk p) :
    (stepTorrent acc p).announce
      = if p.1 = kAnnounce then bvBytes p.2 else acc.announce := by
  by_cases h1 : p.1 = kAnnounce
  · obtain ⟨s, hs, _⟩ := hok.1 h1
    simp [stepTorrent, h1, hs, bvBytes, kdAI]
  · by_cases h2 : p.1 = kInfo
    · cases hbv : dictInfoDec p.2 <;> simp [stepTorrent, h1, h2, hbv, kdIA]
    · simp [stepTorrent, h1, h2]

theorem stepTorrent_info_eq (acc : TorrAcc) (p : List Nat × BVal)
    (hok : tpairOk p) :
    (stepTorrent acc p).info
      = if p.1 = kInfo then dictInfoDec p.2 else acc.info := by
  by_cases h2 : p.1 = kInfo
  · obtain ⟨dps, inf, hv, hobj⟩ := hok.2 h2
    have h1 : ¬ p.1 = kAnnounce := by
      rw [h2]
      decide
    have hdec : dictInfoDec p.2 = some inf := by
      rw [hv]
      exact dictInfoDec_ok dps inf hobj
    simp [stepTorrent, h1, h2, hdec, kdIA]
  · by_cases h1 : p.1 = kAnnounce
    · obtain ⟨s, hs, _⟩ := hok.1 h1
      simp [stepTorrent, h1, h2, hs, kdAI]
    · simp [stepTorrent, h1, h2]

theorem foldl_stepTorrent_announce : ∀ (tps : List (List Nat × BVal)) (acc : TorrAcc),
    (∀ p ∈ tps, tpairOk p) →
    (tps.foldl stepTorrent acc).announce
      = tps.foldl (fun o p => if p.1 = kAnnounce then bvBytes p.2 else o) acc.announce := by
  intro tps
  induction tps with
  | nil => intro acc _; rfl
  | cons p ps ih =>
    intro acc hok
    simp only [List.foldl_cons]
    rw [ih _ fun q hq => hok q (by simp [hq]),
      stepTorrent_announce_eq acc p (hok p (by simp))]

theorem foldl_stepTorrent_info : ∀ (tps : List (List Nat × BVal)) (acc : TorrAcc),
    (∀ p ∈ tps, tpairOk p) →
    (tps.foldl stepTorrent acc).info
      = tps.foldl (fun o p => if p.1 = kInfo then dictInfoDec p.2 else o) acc.info := by
  intro tps
  induction tps with
  | nil => intro acc _; rfl
  | cons p ps ih =>
    intro acc hok
    simp only [List.foldl_cons]
    rw [ih _ fun q hq => hok q (by simp [hq]),
      stepTorrent_info_eq acc p (hok p (by simp))]

/-- Decoding a serialized torrent dictionary from an arbitrary pair
list: duplicates overwrite (last well-typed occurrence wins for
`announce` and `info`) and unrecognized keys are skipped. -/
theorem decodeTorrent_pairs (tps : List (List Nat × BVal))
    (av : List Nat) (iv : BencodeInfo)
    (hok : ∀ p ∈ tps, tpairOk p)
    (ha : lastField bvBytes kAnnounce tps = some av)
    (hi : lastField dictInfoDec kInfo tps = some iv) :
    decodeTorrent (100 :: (serializeIPairs tps ++ [101])) = .ok ⟨av, iv⟩ := by
  have hle : tps.length ≤ (serializeIPairs tps ++ [101]).length := by
    have := serializeIPairs_len tps
    simp only [List.length_append, List.length_cons, List.length_nil]
    omega
  have efuel : (serializeIPairs tps ++ [101]).length + 1
      = ((serializeIPairs tps ++ [101]).length - tps.length) + tps.length + 1 := by
    omega
  have hacc : tps.foldl stepTorrent ⟨none, none⟩ = ⟨some av, some iv⟩ := by
    rcases hFE : tps.foldl stepTorrent ⟨none, none⟩ with ⟨a, b⟩
    have e1 := foldl_stepTorrent_announce tps ⟨none, none⟩ hok
    have e2 := foldl_stepTorrent_info tps ⟨none, none⟩ hok
    rw [hFE] at e1 e2
    simp only [lastField] at ha hi
    dsimp only at e1 e2
    rw [ha] at e1
    rw [hi] at e2
    rw [e1, e2]
  rw [decodeTorrent, efuel, torrentLoop_pairs tps _ [] ⟨none, none⟩ hok, hacc]
  simp [buildTorrent]

theorem stripPre_append (p r : List Nat) : stripPre p (p ++ r) = some r := by
  simp [stripPre, leadsWith_append, List.drop_left]

theorem canonParse_encodeInfo (i : BencodeInfo) :
    canonParse (encodeInfo i) = some (i.length, i.name, i.piece_length, i.pieces) := by
  have h0 : encodeInfo i = 100 :: (encLenPrefixed kLen ++
      (105 :: (decBytes i.length ++ 101 :: (encLenPrefixed kName ++
        (decBytes i.name.length ++ 58 :: (i.name ++ (encLenPrefixed kPieceLen ++
          (105 :: (decBytes i.piece_length ++ 101 :: (encLenPrefixed kPieces ++
            (decBytes i.pieces.length ++ 58 :: (i.pieces ++ [101])))))))))))) := by
    simp [encodeInfo, encIntField, encStrField, encBytesField, encLenPrefixed,
      List.append_assoc]
  rw [h0]
  simp only [canonParse, stripPre_append, parseIntTok_round_nat,
    parseByteStr_round, decVal_decBytes]

theorem encodeInfo_injective {i1 i2 : BencodeInfo}
    (h : encodeInfo i1 = encodeInfo i2) : i1 = i2 := by
  have h1 := canonParse_encodeInfo i1
  rw [h, canonParse_encodeInfo i2] at h1
  simp only [Option.some.injEq, Prod.mk.injEq] at h1
  cases i1
  cases i2
  simp_all

theorem intBytes_ofNat (n : Nat) : intBytes (n : Int) = decBytes n := by
  rw [intBytes, if_neg (by exact not_lt.mpr (Int.natCast_nonneg n))]
  simp

/-- The buffer of `BencodeInfo::hash` is the standard bencode encoding
of the dictionary with exactly the four known fields. -/
theorem encodeInfo_dict (i : BencodeInfo) :
    encodeInfo i = encodeBVal (.dict (.cons kLen (.int (i.length : Int))
      (.cons kName (.bytes i.name) (.cons kPieceLen (.int (i.piece_length : Int))
        (.cons kPieces (.bytes i.pieces) .nil))))) := by
  simp [encodeInfo, encIntField, encStrField, encBytesField, encodeBVal,
    encodeBPairs, intBytes_ofNat, List.append_assoc]

theorem formEnc_append (a b : List Nat) :
    formEnc (a ++ b) = formEnc a ++ formEnc b := by
  induction a with
  | nil => simp [formEnc, concatMapB]
  | cons x xs ih => simp [formEnc, concatMapB] at ih ⊢; simp [ih]

theorem isFormSafe_of_alnum {b : Nat} (h : isAlnumB b = true) :
    isFormSafe b = true := by
  simp [isFormSafe, h]

theorem formByteEnc_hexDigit (n : Nat) (h : n < 16) :
    formByteEnc (hexDigitB n) = [hexDigitB n] := by
  have : isAlnumB (hexDigitB n) = true := by
    rw [hexDigitB]
    split <;> (simp [isAlnumB]; omega)
  simp [formByteEnc, isFormSafe_of_alnum this]

theorem formEnc_percentEncNA (b : Nat) (hb : b < 256) :
    formEnc (percentEncNA b) = dblEncNA b := by
  by_cases h : isAlnumB b = true
  · simp [percentEncNA, dblEncNA, h, formEnc, concatMapB, formByteEnc,
      isFormSafe_of_alnum h]
  · have h37 : formByteEnc 37 = [37, 50, 53] := by decide
    have hd1 : formByteEnc (hexDigitB (b / 16)) = [hexDigitB (b / 16)] :=
      formByteEnc_hexDigit _ (by omega)
    have hd2 : formByteEnc (hexDigitB (b % 16)) = [hexDigitB (b % 16)] :=
      formByteEnc_hexDigit _ (by omega)
    simp [percentEncNA, dblEncNA, h, formEnc, concatMapB, hexByte, h37, hd1, hd2]

theorem formEnc_percentEnc (s : List Nat) (hs : ∀ b ∈ s, b < 256) :
    formEnc (percentEnc s) = concatMapB dblEncNA s := by
  induction s with
  | nil => rfl
  | cons b bs ih =>
    have hb : b < 256 := hs b (by simp)
    have hbs : ∀ x ∈ bs, x < 256 := fun x hx => hs x (by simp [hx])
    show formEnc (percentEncNA b ++ percentEnc bs) = dblEncNA b ++ concatMapB dblEncNA bs
    rw [formEnc_append, formEnc_percentEncNA b hb, ih hbs]

theorem formEnc_safe (s : List Nat) (h : ∀ b ∈ s, isFormSafe b = true) :
    formEnc s = s := by
  induction s with
  | nil => rfl
  | cons b bs ih =>
    show formByteEnc b ++ formEnc bs = b :: bs
    rw [ih fun x hx => h x (by simp [hx])]
    simp [formByteEnc, h b (by simp)]

theorem formEnc_decBytes (n : Nat) : formEnc (decBytes n) = decBytes n := by
  refine formEnc_safe _ fun b hb => ?_
  have := decBytes_digits n b hb
  simp [isFormSafe, isAlnumB]
  omega

/-- The query string `build_tracker_url` produces, with the double
encoding of the two 20-byte fields made explicit. -/
theorem trackerQuery_eq (ih pid : List Nat) (port len : Nat)
    (hih : ∀ b ∈ ih, b < 256) (hpid : ∀ b ∈ pid, b < 256) :
    trackerQuery ih pid port len
      = strBytes "info_hash=" ++ (concatMapB dblEncNA ih ++ (strBytes "&peer_id="
        ++ (concatMapB dblEncNA pid ++ (strBytes "&port=" ++ (decBytes port
        ++ (strBytes "&uploaded=0&downloaded=0&compact=1&left=" ++ decBytes len)))))) := by
  have hk1 : formEnc (strBytes "info_hash") = strBytes "info_hash" := by decide
  have hk2 : formEnc (strBytes "peer_id") = strBytes "peer_id" := by decide
  have hk3 : formEnc (strBytes "port") = strBytes "port" := by decide
  have hk4 : formEnc (strBytes "uploaded") = strBytes "uploaded" := by decide
  have hk5 : formEnc (strBytes "downloaded") = strBytes "downloaded" := by decide
  have hk6 : formEnc (strBytes "compact") = strBytes "compact" := by decide
  have hk7 : formEnc (strBytes "left") = strBytes "left" := by decide
  have hv0 : formEnc (strBytes "0") = strBytes "0" := by decide
  have hv1 : formEnc (strBytes "1") = strBytes "1" := by decide
  rw [trackerQuery]
  simp only [formSerialize, hk1, hk2, hk3, hk4, hk5, hk6, hk7, hv0, hv1,
    formEnc_percentEnc ih hih, formEnc_percentEnc pid hpid,
    formEnc_decBytes]
  simp [strBytes, List.append_assoc]

theorem chunks20_map : ∀ (n : Nat) (l : List Nat), l.length ≤ n →
    l.length % 20 = 0 →
    chunks20 l = (List.range (l.length / 20)).map (fun i => (l.drop (20 * i)).take 20) := by
  intro n
  induction n using Nat.strong_induction_on with
  | _ n ih =>
    intro l hn h20
    rw [chunks20_eq]
    split
    · rename_i hnil
      subst hnil
      simp
    · rename_i hnil
      have hpos : 0 < l.length := List.length_pos.mpr hnil
      have h20le : 20 ≤ l.length := by omega
      have hdl : (l.drop 20).length = l.length - 20 := by
        simp [List.length_drop]
      have hdl20 : (l.drop 20).length % 20 = 0 := by omega
      have hlt : (l.drop 20).length < n := by omega
      rw [ih (l.drop 20).length hlt (l.drop 20) le_rfl hdl20]
      have hq : l.length / 20 = (l.drop 20).length / 20 + 1 := by omega
      rw [hq, List.range_succ_eq_map]
      simp only [List.map_cons, List.map_map, Nat.mul_zero, List.drop_zero]
      congr 1
      refine List.map_congr_left fun i hi => ?_
      simp only [Function.comp_apply]
      rw [List.drop_drop]
      congr 2
      omega

theorem chunks20_record_len (l : List Nat) (h20 : l.length % 20 = 0) :
    ∀ r ∈ chunks20 l, r.length = 20 := by
  intro r hr
  rw [chunks20_map l.length l le_rfl h20] at hr
  simp only [List.mem_map, List.mem_range] at hr
  obtain ⟨i, hi, hrec⟩ := hr
  have : 20 * i + 20 ≤ l.length := by omega
  subst hrec
  simp [List.length_take, List.length_drop]
  omega

theorem peersOf_map : ∀ (n : Nat) (l : List Nat), l.length ≤ n →
    l.length % 6 = 0 →
    peersOf l = (List.range (l.length / 6)).map (fun i => peerAt (l.drop (6 * i))) := by
  intro n
  induction n using Nat.strong_induction_on with
  | _ n ih =>
    intro l hn h6
    match l, h6 with
    | [], _ => simp [peersOf]
    | [a], h6 => simp at h6
    | [a, b], h6 => simp at h6
    | [a, b, c], h6 => simp at h6
    | [a, b, c, d], h6 => simp at h6
    | [a, b, c, d, p], h6 => simp at h6
    | a :: b :: c :: d :: p :: q :: rest, h6 =>
      have hlen : (a :: b :: c :: d :: p :: q :: rest).length = rest.length + 6 := by
        simp
      have h6r : rest.length % 6 = 0 := by
        rw [hlen] at h6
        omega
      have hlt : rest.length < n := by
        rw [hlen] at hn
        omega
      rw [peersOf, ih rest.length hlt rest le_rfl h6r]
      have hq : (a :: b :: c :: d :: p :: q :: rest).length / 6 = rest.length / 6 + 1 := by
        rw [hlen]
        omega
      rw [hq, List.range_succ_eq_map]
      simp only [List.map_cons, List.map_map, Nat.mul_zero, List.drop_zero]
      refine congrArg₂ List.cons rfl (List.map_congr_left fun i hi => ?_)
      show peerAt (List.drop (6 * i) rest)
          = peerAt (List.drop (6 * (i + 1)) (a :: b :: c :: d :: p :: q :: rest))
      have e6 : 6 * (i + 1) = 6 * i + 6 := by omega
      rw [e6, ← List.drop_drop]
      have hcomm : List.drop 6 (List.drop (6 * i) (a :: b :: c :: d :: p :: q :: rest))
          = List.drop (6 * i) (List.drop 6 (a :: b :: c :: d :: p :: q :: rest)) := by
        rw [List.drop_drop, List.drop_drop, Nat.add_comm]
      rw [hcomm]
      rfl

theorem usizeFromTok_minus (l : List Nat) : usizeFromTok (45 :: l) = none := by
  simp [usizeFromTok, isDigitB]

theorem intBytes_negSucc (n : Nat) :
    intBytes (Int.negSucc n) = 45 :: decBytes (n + 1) := by
  simp [intBytes]

/-- A negative `length` integer makes the info decode fail at the
`parse::<usize>` step. -/
theorem decodeInfoDoc_negLength (n : Nat) (tail : List Nat) :
    decodeInfoDoc (100 :: (encLenPrefixed kLen ++
      (105 :: (intBytes (Int.negSucc n) ++ 101 :: tail)))) = .error .parseIntErr := by
  have hit : parseIntTok (105 :: 45 :: (decBytes (n + 1) ++ 101 :: tail))
      = .ok (45 :: decBytes (n + 1), tail) := by
    have h := parseIntTok_round (45 :: decBytes (n + 1)) tail
      (by rw [← intBytes_negSucc]; exact intTokenValid_intBytes _)
      (by rw [← intBytes_negSucc]; exact intBytes_ne_e _)
    simpa using h
  rw [decodeInfoDoc, decodeInfoObj, infoLoop_dispatch]
  rw [intBytes_negSucc]
  simp [kdNP, kdNL, hit, usizeFromTok_minus]

/-- A negative `piece length` integer makes the info decode fail at the
`parse::<usize>` step. -/
theorem decodeInfoDoc_negPieceLen (n : Nat) (tail : List Nat) :
    decodeInfoDoc (100 :: (encLenPrefixed kPieceLen ++
      (105 :: (intBytes (Int.negSucc n) ++ 101 :: tail)))) = .error .parseIntErr := by
  have hit : parseIntTok (105 :: 45 :: (decBytes (n + 1) ++ 101 :: tail))
      = .ok (45 :: decBytes (n + 1), tail) := by
    have h := parseIntTok_round (45 :: decBytes (n + 1)) tail
      (by rw [← intBytes_negSucc]; exact intTokenValid_intBytes _)
      (by rw [← intBytes_negSucc]; exact intBytes_ne_e _)
    simpa using h
  rw [decodeInfoDoc, decodeInfoObj, infoLoop_dispatch]
  rw [intBytes_negSucc]
  simp [kdLP, hit, usizeFromTok_minus]

theorem tryFrom_ok (bt : BencodeTorrent) (h : bt.info.pieces.length % 20 = 0) :
    TorrentFile.tryFrom bt = .ok ⟨bt.announce, sha1 (encodeInfo bt.info),
      chunks20 bt.info.pieces, bt.info.piece_length, bt.info.length, bt.info.name⟩ := by
  simp [TorrentFile.tryFrom, BencodeInfo.hash, BencodeInfo.split_pieces_hashes, h]

theorem tryFrom_err (bt : BencodeTorrent) (h : bt.info.pieces.length % 20 ≠ 0) :
    TorrentFile.tryFrom bt = .error (strBytes "Received malformed pieces: length " ++
      decBytes bt.info.pieces.length ++ strBytes " is not a multiple of 20") := by
  simp [TorrentFile.tryFrom, BencodeInfo.hash, BencodeInfo.split_pieces_hashes, h]

/-- C4: for pieces of length L, `split_pieces_hashes` returns exactly
L/20 ordered 20-byte records, record i being bytes [20i, 20i+20) (the
empty string giving the empty list), and fails on L % 20 ≠ 0 with an
error that contains the decimal text of the offending length L. -/
theorem claim_C4 (i : BencodeInfo) :
    (i.pieces.length % 20 = 0 →
      BencodeInfo.split_pieces_hashes i
        = .ok ((List.range (i.pieces.length / 20)).map
            (fun idx => (i.pieces.drop (20 * idx)).take 20)) ∧
      (∀ r ∈ chunks20 i.pieces, r.length = 20) ∧
      (i.pieces = [] → BencodeInfo.split_pieces_hashes i = .ok [])) ∧
    (i.pieces.length % 20 ≠ 0 →
      BencodeInfo.split_pieces_hashes i
          = .error (strBytes "Received malformed pieces: length " ++
              decBytes i.pieces.length ++ strBytes " is not a multiple of 20") ∧
      occursIn (decBytes i.pieces.length)
        (strBytes "Received malformed pieces: length " ++
          decBytes i.pieces.length ++ strBytes " is not a multiple of 20") = true) := by
  constructor
  · intro h20
    refine ⟨?_, chunks20_record_len _ h20, ?_⟩
    · rw [BencodeInfo.split_pieces_hashes, if_neg (by omega),
        chunks20_map i.pieces.length i.pieces le_rfl h20]
    · intro hnil
      rw [BencodeInfo.split_pieces_hashes, if_neg (by omega)]
      rw [chunks20_eq]
      simp [hnil]
  · intro h20
    refine ⟨?_, occursIn_append _ _ _⟩
    rw [BencodeInfo.split_pieces_hashes, if_pos h20]

/-- C4 witness: a 20-byte pieces string splits into its single record,
and a 5-byte pieces string fails with an error containing "5". -/
theorem claim_C4_witness :
    BencodeInfo.split_pieces_hashes
        ⟨strBytes "abcdefghijklmnopqrst", 262144, 12345, strBytes "test"⟩
      = .ok [strBytes "abcdefghijklmnopqrst"] ∧
    BencodeInfo.split_pieces_hashes ⟨[1, 2, 3, 4, 5], 262144, 12345, strBytes "test"⟩
        = .error (strBytes "Received malformed pieces: length " ++
            decBytes 5 ++ strBytes " is not a multiple of 20") ∧
    occursIn (decBytes 5) (strBytes "Received malformed pieces: length " ++
        decBytes 5 ++ strBytes " is not a multiple of 20") = true := by
  refine ⟨?_, ?_, ?_⟩
  · have h := (claim_C4 ⟨strBytes "abcdefghijklmnopqrst", 262144, 12345,
      strBytes "test"⟩).1 (by decide)
    rw [h.1]
    decide
  · exact ((claim_C4 ⟨[1, 2, 3, 4, 5], 262144, 12345, strBytes "test"⟩).2 (by decide)).1
  · exact ((claim_C4 ⟨[1, 2, 3, 4, 5], 262144, 12345, strBytes "test"⟩).2 (by decide)).2

/-- C5: on input of length divisible by 6, `unmarshal` succeeds with
one peer per 6-byte group in input order, peer i taking its IPv4
octets from bytes [6i, 6i+4) and its port as the big-endian 16-bit
value of bytes [6i+4, 6i+6); the empty input gives the empty list and
`01 02 03 04 1A E1` gives the single peer 1.2.3.4:6881. -/
theorem claim_C5 (bin : List Nat) :
    (bin.length % 6 = 0 →
      Peer.unmarshal bin
        = .ok ((List.range (bin.length / 6)).map (fun i => peerAt (bin.drop (6 * i))))) ∧
    Peer.unmarshal [] = .ok [] ∧
    Peer.unmarshal [1, 2, 3, 4, 26, 225] = .ok [⟨(1, 2, 3, 4), 6881⟩] := by
  refine ⟨?_, by decide, by decide⟩
  intro h6
  rw [Peer.unmarshal, if_neg (by omega), peersOf_map bin.length bin le_rfl h6]

/-- C5 witness: two concatenated 6-byte groups decode to the two peers
1.1.1.1:80 and 8.8.8.8:6881 in input order. -/
theorem claim_C5_witness :
    Peer.unmarshal [1, 1, 1, 1, 0, 80, 8, 8, 8, 8, 26, 225]
      = .ok [⟨(1, 1, 1, 1), 80⟩, ⟨(8, 8, 8, 8), 6881⟩] := by
  have h := (claim_C5 [1, 1, 1, 1, 0, 80, 8, 8, 8, 8, 26, 225]).1 (by decide)
  rw [h]
  decide

/-- C3 counterexample: on the 5-byte input the decoder fails, but the
error text does not contain the decimal text of the actual length 5 —
it interpolates the constant `PEER_SIZE` (6) instead. -/
theorem claim_C3_cex :
    Peer.unmarshal [127, 0, 0, 1, 26]
        = .error (strBytes "Received malformed peers list (length not divisible by 6)") ∧
    occursIn (decBytes 5)
      (strBytes "Received malformed peers list (length not divisible by 6)") = false := by
  decide

/-- C3 amended: every input whose length is not a multiple of 6 fails
with the fixed message naming the required group size 6 (not the
actual input length). -/
theorem claim_C3_amended (bin : List Nat) (h : bin.length % 6 ≠ 0) :
    Peer.unmarshal bin
        = .error (strBytes "Received malformed peers list (length not divisible by 6)") ∧
    occursIn (decBytes 6)
      (strBytes "Received malformed peers list (length not divisible by 6)") = true := by
  refine ⟨?_, by decide⟩
  rw [Peer.unmarshal, if_pos (by omega)]

/-- C3 witness: the amended statement at the concrete 5-byte input. -/
theorem claim_C3_witness :
    Peer.unmarshal [127, 0, 0, 1, 26]
        = .error (strBytes "Received malformed peers list (length not divisible by 6)") ∧
    occursIn (decBytes 6)
      (strBytes "Received malformed peers list (length not divisible by 6)") = true :=
  claim_C3_amended [127, 0, 0, 1, 26] (by decide)

/-- C2 counterexample: an info dictionary whose `piece length` is the
integer 0 decodes successfully (piece length 0 is not rejected),
contradicting the claim that any value below 1 fails. -/
theorem claim_C2_cex :
    decodeInfoDoc (strBytes "d6:lengthi12e4:name4:test12:piece lengthi0e6:pieces0:e")
      = .ok ⟨[], 0, 12, strBytes "test"⟩ := by
  decide

/-- C2 amended: decoding fails whenever the `length` integer or the
`piece length` integer is negative (the unsigned `parse::<usize>`
rejects the minus sign), while `piece length` 0 — and any non-negative
value — is accepted. -/
theorem claim_C2_amended (n : Nat) (tail : List Nat) :
    decodeInfoDoc (100 :: (encLenPrefixed kLen ++
        (105 :: (intBytes (Int.negSucc n) ++ 101 :: tail)))) = .error .parseIntErr ∧
    decodeInfoDoc (100 :: (encLenPrefixed kPieceLen ++
        (105 :: (intBytes (Int.negSucc n) ++ 101 :: tail)))) = .error .parseIntErr ∧
    decodeInfoDoc (strBytes "d6:lengthi12e4:name4:test12:piece lengthi0e6:pieces0:e")
      = .ok ⟨[], 0, 12, strBytes "test"⟩ :=
  ⟨decodeInfoDoc_negLength n tail, decodeInfoDoc_negPieceLen n tail, by decide⟩

/-- C7: decoding the canonical encoding of an info record reproduces
its four fields exactly; the hypotheses state that the record is one a
Rust `BencodeInfo` can hold (valid UTF-8 name, `usize` fields). -/
theorem claim_C7 (i : BencodeInfo) (hname : isValidUtf8 i.name = true)
    (hlen : i.length < 18446744073709551616)
    (hpl : i.piece_length < 18446744073709551616) :
    decodeInfoDoc (encodeInfo i) = .ok i :=
  decodeInfoDoc_round i hname hlen hpl

/-- C7 witness: the round trip at a concrete info record. -/
theorem claim_C7_witness :
    isValidUtf8 (strBytes "test") = true ∧
    decodeInfoDoc (encodeInfo ⟨strBytes "abcdefghijklmnopqrst", 262144, 12345, strBytes "test"⟩)
      = .ok ⟨strBytes "abcdefghijklmnopqrst", 262144, 12345, strBytes "test"⟩ :=
  ⟨by decide, claim_C7 ⟨strBytes "abcdefghijklmnopqrst", 262144, 12345, strBytes "test"⟩
    (by decide) (by decide) (by decide)⟩

/-- C6: the canonical buffer is the standard bencode dictionary with
exactly the four known fields in ascending key order `length`, `name`,
`piece length`, `pieces`; hashing is total and yields 20 bytes;
identical fields give identical buffers and hashes; and changing the
record changes the buffer. -/
theorem claim_C6 :
    (∀ i : BencodeInfo, encodeInfo i
      = encodeBVal (.dict (.cons kLen (.int (i.length : Int))
          (.cons kName (.bytes i.name) (.cons kPieceLen (.int (i.piece_length : Int))
            (.cons kPieces (.bytes i.pieces) BPairs.nil)))))) ∧
    (lexLtB kLen kName = true ∧ lexLtB kName kPieceLen = true ∧
      lexLtB kPieceLen kPieces = true) ∧
    (∀ i : BencodeInfo, ∃ d, BencodeInfo.hash i = .ok d ∧ d.length = 20) ∧
    (∀ i1 i2 : BencodeInfo, i1.pieces = i2.pieces → i1.piece_length = i2.piece_length →
      i1.length = i2.length → i1.name = i2.name →
      encodeInfo i1 = encodeInfo i2 ∧ BencodeInfo.hash i1 = BencodeInfo.hash i2) ∧
    (∀ i1 i2 : BencodeInfo, i1 ≠ i2 → encodeInfo i1 ≠ encodeInfo i2) := by
  refine ⟨encodeInfo_dict, by decide, ?_, ?_, ?_⟩
  · intro i
    exact ⟨sha1 (encodeInfo i), rfl, sha1_length _⟩
  · intro i1 i2 h1 h2 h3 h4
    cases i1
    cases i2
    simp only at h1 h2 h3 h4
    subst h1
    subst h2
    subst h3
    subst h4
    exact ⟨rfl, rfl⟩
  · intro i1 i2 hne heq
    exact hne (encodeInfo_injective heq)

/-- C6 witness: two records differing only in `length` have distinct
canonical buffers. -/
theorem claim_C6_witness :
    encodeInfo ⟨strBytes "abc", 1, 2, strBytes "x"⟩
      ≠ encodeInfo ⟨strBytes "abc", 1, 3, strBytes "x"⟩ :=
  claim_C6.2.2.2.2 ⟨strBytes "abc", 1, 2, strBytes "x"⟩
    ⟨strBytes "abc", 1, 3, strBytes "x"⟩ (by decide)

/-- C9: the fixed bencoded document decodes end-to-end into a
descriptor with announce `http://tracker`, length 12345, piece length
262144, name `test`, the single piece hash `abcdefghijklmnopqrst`, and
a 20-byte info hash computed (deterministically — the model is a pure
function) from the canonical encoding. -/
theorem claim_C9 :
    ∃ tf : TorrentFile,
      decodeTorrentFile (strBytes "d8:announce14:http://tracker4:infod6:lengthi12345e4:name4:test12:piece lengthi262144e6:pieces20:abcdefghijklmnopqrstee")
        = .ok tf ∧
      tf.announce = strBytes "http://tracker" ∧
      tf.length = 12345 ∧
      tf.piece_length = 262144 ∧
      tf.name = strBytes "test" ∧
      tf.piece_hashes = [strBytes "abcdefghijklmnopqrst"] ∧
      tf.info_hash.length = 20 ∧
      tf.info_hash
        = sha1 (encodeInfo ⟨strBytes "abcdefghijklmnopqrst", 262144, 12345, strBytes "test"⟩) := by
  refine ⟨⟨strBytes "http://tracker",
    sha1 (encodeInfo ⟨strBytes "abcdefghijklmnopqrst", 262144, 12345, strBytes "test"⟩),
    [strBytes "abcdefghijklmnopqrst"], 262144, 12345, strBytes "test"⟩,
    ?_, rfl, rfl, rfl, rfl, rfl, sha1_length _, rfl⟩
  have hdec : decodeTorrent (strBytes "d8:announce14:http://tracker4:infod6:lengthi12345e4:name4:test12:piece lengthi262144e6:pieces20:abcdefghijklmnopqrstee")
      = .ok ⟨strBytes "http://tracker",
          ⟨strBytes "abcdefghijklmnopqrst", 262144, 12345, strBytes "test"⟩⟩ := by
    decide
  rw [decodeTorrentFile, hdec]
  show TorrentFile.tryFrom ⟨strBytes "http://tracker",
      ⟨strBytes "abcdefghijklmnopqrst", 262144, 12345, strBytes "test"⟩⟩ = _
  rw [tryFrom_ok ⟨strBytes "http://tracker",
      ⟨strBytes "abcdefghijklmnopqrst", 262144, 12345, strBytes "test"⟩⟩ (by decide)]
  have hch : chunks20 (strBytes "abcdefghijklmnopqrst") = [strBytes "abcdefghijklmnopqrst"] := by
    decide
  rw [show (⟨strBytes "http://tracker",
      ⟨strBytes "abcdefghijklmnopqrst", 262144, 12345, strBytes "test"⟩⟩ : BencodeTorrent).info.pieces
    = strBytes "abcdefghijklmnopqrst" from rfl, hch]

/-- C8 counterexample: a torrent whose pieces string is 19 bytes long
decodes successfully, yet constructing the descriptor fails (in
`split_pieces_hashes`), so construction does not succeed for every
successfully decoded torrent. -/
theorem claim_C8_cex :
    decodeTorrent (strBytes "d8:announce14:http://tracker4:infod6:lengthi12345e4:name4:test12:piece lengthi262144e6:pieces19:abcdefghijklmnopqrsee")
      = .ok ⟨strBytes "http://tracker",
          ⟨strBytes "abcdefghijklmnopqrs", 262144, 12345, strBytes "test"⟩⟩ ∧
    exOk (TorrentFile.tryFrom ⟨strBytes "http://tracker",
        ⟨strBytes "abcdefghijklmnopqrs", 262144, 12345, strBytes "test"⟩⟩) = false := by
  constructor
  · decide
  · rw [tryFrom_err _ (by decide)]
    rfl

/-- C8 amended: construction succeeds for every decoded torrent whose
pieces length is a multiple of 20, its outcome never depends on the
announce string (no URL validation at construction), and
`build_tracker_url` is where a malformed announce fails: it errors
exactly on announces the URL parser rejects, with a message naming the
offending string (`not-a-valid-url` being such an announce). -/
theorem claim_C8_amended :
    (∀ bt : BencodeTorrent, bt.info.pieces.length % 20 = 0 →
      exOk (TorrentFile.tryFrom bt) = true) ∧
    (∀ (info : BencodeInfo) (a1 a2 : List Nat),
      exOk (TorrentFile.tryFrom ⟨a1, info⟩) = exOk (TorrentFile.tryFrom ⟨a2, info⟩)) ∧
    (∀ (t : TorrentFile) (pid : List Nat) (port : Nat),
      urlParseSimple t.announce = none →
      TorrentFile.build_tracker_url t pid port
          = .error (strBytes "Invalid announce URL: " ++ t.announce) ∧
      occursIn t.announce (strBytes "Invalid announce URL: " ++ t.announce) = true) ∧
    (∀ (t : TorrentFile) (pid : List Nat) (port : Nat) (u : UrlM),
      urlParseSimple t.announce = some u →
      exOkU (TorrentFile.build_tracker_url t pid port) = true) ∧
    urlParseSimple (strBytes "not-a-valid-url") = none := by
  refine ⟨?_, ?_, ?_, ?_, by decide⟩
  · intro bt h
    rw [tryFrom_ok bt h]
    rfl
  · intro info a1 a2
    by_cases h : info.pieces.length % 20 = 0
    · rw [tryFrom_ok ⟨a1, info⟩ h, tryFrom_ok ⟨a2, info⟩ h]
      rfl
    · rw [tryFrom_err ⟨a1, info⟩ h, tryFrom_err ⟨a2, info⟩ h]
  · intro t pid port h
    constructor
    · rw [TorrentFile.build_tracker_url.eq_def, h]
    · have := occursIn_append (strBytes "Invalid announce URL: ") t.announce []
      simpa using this
  · intro t pid port u h
    rw [TorrentFile.build_tracker_url.eq_def, h]
    rfl

/-- C8 witness: the amended statement at concrete inputs — a decoded
torrent with well-formed pieces constructs, and the announce
`not-a-valid-url` makes only the URL-build step fail, naming the
string. -/
theorem claim_C8_witness :
    exOk (TorrentFile.tryFrom ⟨strBytes "not-a-valid-url",
        ⟨strBytes "abcdefghijklmnopqrst", 262144, 12345, strBytes "test"⟩⟩) = true ∧
    TorrentFile.build_tracker_url ⟨strBytes "not-a-valid-url", List.replicate 20 0, [],
        262144, 12345, strBytes "test"⟩ (List.replicate 20 65) 6881
      = .error (strBytes "Invalid announce URL: " ++ strBytes "not-a-valid-url") := by
  constructor
  · exact claim_C8_amended.1 ⟨strBytes "not-a-valid-url",
      ⟨strBytes "abcdefghijklmnopqrst", 262144, 12345, strBytes "test"⟩⟩ (by decide)
  · exact (claim_C8_amended.2.2.1 ⟨strBytes "not-a-valid-url", List.replicate 20 0, [],
      262144, 12345, strBytes "test"⟩ (List.replicate 20 65) 6881 (by decide)).1

/-- C1 counterexample: with a parsable announce, an all-zero info hash
and an all-`A` peer id, the built URL is not the one the claim
describes — the claim's query would carry each non-alphanumeric byte
percent-encoded exactly once (`percentEnc`), but the code feeds the
percent-encoded strings through the form serializer, which encodes the
`%` again. -/
theorem claim_C1_cex :
    exOkU (TorrentFile.build_tracker_url
      ⟨strBytes "http://tracker.example.com/announce", List.replicate 20 0, [],
        262144, 1000000, strBytes "example.txt"⟩ (List.replicate 20 65) 6881) = true ∧
    TorrentFile.build_tracker_url
      ⟨strBytes "http://tracker.example.com/announce", List.replicate 20 0, [],
        262144, 1000000, strBytes "example.txt"⟩ (List.replicate 20 65) 6881
      ≠ .ok (strBytes "http://tracker.example.com/announce?info_hash="
          ++ percentEnc (List.replicate 20 0) ++ strBytes "&peer_id="
          ++ percentEnc (List.replicate 20 65)
          ++ strBytes "&port=6881&uploaded=0&downloaded=0&compact=1&left=1000000") := by
  decide

/-- C1 amended: for every descriptor whose announce the URL parser
accepts, every 20-byte peer id and every port, the result keeps
scheme, host and path and replaces the query by exactly the pairs
`info_hash`, `peer_id`, `port`, `uploaded=0`, `downloaded=0`,
`compact=1`, `left=<length>` in that fixed order — where the two
20-byte fields appear percent-encoded twice: each non-alphanumeric
byte b becomes `%25XX` (the `%` of its first encoding re-encoded by
the form serializer), alphanumeric bytes staying as they are. -/
theorem claim_C1_amended (t : TorrentFile) (pid : List Nat) (port : Nat) (u : UrlM)
    (hu : urlParseSimple t.announce = some u)
    (hih : ∀ b ∈ t.info_hash, b < 256) (hpid : ∀ b ∈ pid, b < 256)
    (_hpid20 : pid.length = 20) :
    TorrentFile.build_tracker_url t pid port
      = .ok (u.scheme ++ strBytes "://" ++ u.host ++ u.path ++ 63 ::
          (strBytes "info_hash=" ++ (concatMapB dblEncNA t.info_hash ++ (strBytes "&peer_id="
            ++ (concatMapB dblEncNA pid ++ (strBytes "&port=" ++ (decBytes port
            ++ (strBytes "&uploaded=0&downloaded=0&compact=1&left="
              ++ decBytes t.length)))))))) := by
  rw [TorrentFile.build_tracker_url.eq_def, hu]
  show Except.ok (urlWithQuery u (trackerQuery t.info_hash pid port t.length)) = _
  rw [show urlWithQuery u (trackerQuery t.info_hash pid port t.length)
    = u.scheme ++ strBytes "://" ++ u.host ++ u.path
      ++ 63 :: trackerQuery t.info_hash pid port t.length from rfl]
  rw [trackerQuery_eq t.info_hash pid port t.length hih hpid]

/-- C1 witness: the amended statement at the counterexample's inputs. -/
theorem claim_C1_witness :
    urlParseSimple (strBytes "http://tracker.example.com/announce")
        = some ⟨strBytes "http", strBytes "tracker.example.com", strBytes "/announce", none⟩ ∧
    TorrentFile.build_tracker_url
        ⟨strBytes "http://tracker.example.com/announce", List.replicate 20 0, [],
          262144, 1000000, strBytes "example.txt"⟩ (List.replicate 20 65) 6881
      = .ok (strBytes "http" ++ strBytes "://" ++ strBytes "tracker.example.com"
          ++ strBytes "/announce" ++ 63 ::
          (strBytes "info_hash=" ++ (concatMapB dblEncNA (List.replicate 20 0)
            ++ (strBytes "&peer_id=" ++ (concatMapB dblEncNA (List.replicate 20 65)
            ++ (strBytes "&port=" ++ (decBytes 6881
            ++ (strBytes "&uploaded=0&downloaded=0&compact=1&left="
              ++ decBytes 1000000)))))))) :=
  ⟨by decide, claim_C1_amended
    ⟨strBytes "http://tracker.example.com/announce", List.replicate 20 0, [],
      262144, 1000000, strBytes "example.txt"⟩ (List.replicate 20 65) 6881
    ⟨strBytes "http", strBytes "tracker.example.com", strBytes "/announce", none⟩
    (by decide) (by decide) (by decide) (by decide)⟩

/-- C10: duplicate recognized keys are not rejected by either decode
loop — every occurrence overwrites the previous one, so each field is
the value of the last occurrence in parse order (the `lastField`
equations), while unrecognized keys of arbitrary value shape are
skipped without affecting the result; this holds for the info
dictionary keys and for the torrent keys `announce` and `info`. -/
theorem claim_C10 :
    (∀ (ps : List (List Nat × BVal)) (psv nmv : List Nat) (plv lv : Nat),
      (∀ p ∈ ps, ipairOk p) →
      lastField bvBytes kPieces ps = some psv →
      lastField bvUsize kPieceLen ps = some plv →
      lastField bvUsize kLen ps = some lv →
      lastField bvBytes kName ps = some nmv →
      decodeInfoDoc (100 :: (serializeIPairs ps ++ [101])) = .ok ⟨psv, plv, lv, nmv⟩) ∧
    (∀ (tps : List (List Nat × BVal)) (av : List Nat) (iv : BencodeInfo),
      (∀ p ∈ tps, tpairOk p) →
      lastField bvBytes kAnnounce tps = some av →
      lastField dictInfoDec kInfo tps = some iv →
      decodeTorrent (100 :: (serializeIPairs tps ++ [101])) = .ok ⟨av, iv⟩) :=
  ⟨fun ps psv nmv plv lv hok hp hpl hl hn =>
      decodeInfoDoc_pairs ps psv nmv plv lv hok hp hpl hl hn,
    fun tps av iv hok ha hi => decodeTorrent_pairs tps av iv hok ha hi⟩

/-- C10 witness: an info dictionary in which `length` occurs twice
(values 1 then 7) with an unrecognized key `foo` carrying a nested
list decodes with `length` 7; and a torrent dictionary in which
`announce` occurs twice decodes with the second announce value. -/
theorem claim_C10_witness :
    decodeInfoDoc (100 :: (serializeIPairs
        [(kLen, .int 1), (strBytes "foo", .list (.cons (.int (-2)) .nil)),
          (kPieces, .bytes []), (kLen, .int 7), (kName, .bytes (strBytes "a")),
          (kPieceLen, .int 3)] ++ [101]))
      = .ok ⟨[], 3, 7, strBytes "a"⟩ ∧
    decodeTorrent (100 :: (serializeIPairs
        [(kAnnounce, .bytes (strBytes "http://t")),
          (kInfo, .dict (.cons kPieces (.bytes []) (.cons kPieceLen (.int 1)
            (.cons kLen (.int 2) (.cons kName (.bytes (strBytes "n")) .nil))))),
          (kAnnounce, .bytes (strBytes "http://u"))] ++ [101]))
      = .ok ⟨strBytes "http://u", ⟨[], 1, 2, strBytes "n"⟩⟩ := by
  have hinfoOk : infoObjOk (.cons kPieces (.bytes []) (.cons kPieceLen (.int 1)
      (.cons kLen (.int 2) (.cons kName (.bytes (strBytes "n")) .nil))))
      ⟨[], 1, 2, strBytes "n"⟩ := by
    refine ⟨?_, by decide, by decide, by decide, by decide⟩
    intro p hp
    simp only [bpairsToList, List.mem_cons, List.not_mem_nil, or_false] at hp
    rcases hp with h | h | h | h <;> subst h <;>
      refine ⟨?_, ?_, ?_, ?_⟩ <;> intro hk
    all_goals first
      | exact absurd hk (by decide)
      | exact ⟨1, rfl, by omega, by omega⟩
      | exact ⟨2, rfl, by omega, by omega⟩
      | exact ⟨[], rfl⟩
      | exact ⟨strBytes "n", rfl, by decide⟩
  constructor
  · refine claim_C10.1
      [(kLen, .int 1), (strBytes "foo", .list (.cons (.int (-2)) .nil)),
        (kPieces, .bytes []), (kLen, .int 7), (kName, .bytes (strBytes "a")),
        (kPieceLen, .int 3)] [] (strBytes "a") 3 7 ?_ (by decide) (by decide) (by decide)
      (by decide)
    intro p hp
    simp only [List.mem_cons, List.not_mem_nil, or_false] at hp
    rcases hp with h | h | h | h | h | h <;> subst h <;>
      refine ⟨?_, ?_, ?_, ?_⟩ <;> intro hk
    all_goals first
      | exact absurd hk (by decide)
      | exact ⟨1, rfl, by omega, by omega⟩
      | exact ⟨7, rfl, by omega, by omega⟩
      | exact ⟨3, rfl, by omega, by omega⟩
      | exact ⟨[], rfl⟩
      | exact ⟨strBytes "a", rfl, by decide⟩
  · refine claim_C10.2
      [(kAnnounce, .bytes (strBytes "http://t")),
        (kInfo, .dict (.cons kPieces (.bytes []) (.cons kPieceLen (.int 1)
          (.cons kLen (.int 2) (.cons kName (.bytes (strBytes "n")) .nil))))),
        (kAnnounce, .bytes (strBytes "http://u"))]
      (strBytes "http://u") ⟨[], 1, 2, strBytes "n"⟩ ?_ (by decide) ?_
    · intro p hp
      simp only [List.mem_cons, List.not_mem_nil, or_false] at hp
      rcases hp with h | h | h <;> subst h <;> refine ⟨?_, ?_⟩ <;> intro hk
      all_goals first
        | exact absurd hk (by decide)
        | exact ⟨strBytes "http://t", rfl, by decide⟩
        | exact ⟨strBytes "http://u", rfl, by decide⟩
        | exact ⟨_, _, rfl, hinfoOk⟩
    · have hd := dictInfoDec_ok _ _ hinfoOk
      simp [lastField, kdAI, kdIA, hd]
